import Mathlib

/-!
Verification development for the pdf-converter heading-classification core
(`src/pdf_converter/parsers/docling_parser.py`) and its IR schema
(`src/pdf_converter/ir/schema.py`).

The Python functions are shallowly embedded as Lean functions over `List Char`
/ `String`.  Each `re` pattern of the source is replaced by an equivalent
deterministic matcher (the patterns involved are analysed below wherever
backtracking could matter).  Character classes are given their ASCII reading
(`\d` = 0-9, `\s` = space, tab, LF, CR, VT, FF, `\w` = letters, digits and
underscore, `[A-Z]` under `re.IGNORECASE` = ASCII letters).
-/

set_option maxRecDepth 8000
set_option maxHeartbeats 1600000

namespace PdfConverter

/-- ASCII reading of Python's `\s` character class. -/
def isSpaceChar (c : Char) : Bool :=
  c = ' ' || c = '\t' || c = '\n' || c = '\r' || c = '\x0b' || c = '\x0c'

/-- ASCII reading of Python's `\w` class (used for the `\b` word boundary). -/
def isWordChar (c : Char) : Bool := c.isAlphanum || c = '_'

/-- Membership in `[IVXLCDM]` under `re.IGNORECASE` (the fourteen ASCII
characters). -/
def isRomanChar (c : Char) : Bool :=
  c = 'I' || c = 'i' || c = 'V' || c = 'v' || c = 'X' || c = 'x' ||
  c = 'L' || c = 'l' || c = 'C' || c = 'c' || c = 'D' || c = 'd' ||
  c = 'M' || c = 'm'

/-- Python `str.strip()` (ASCII whitespace reading). -/
def pyStrip (cs : List Char) : List Char :=
  ((cs.dropWhile isSpaceChar).reverse.dropWhile isSpaceChar).reverse

/-- A `\b` word boundary placed after a word character: holds when the
remaining input is empty or starts with a non-word character. -/
def boundaryOK : List Char → Bool
  | [] => true
  | c :: _ => !isWordChar c

/-- One-or-more characters satisfying `p`, then a word boundary (`p+\b` where
`p` is a class of word characters).  Greedy matching with backtracking is
equivalent to this: any shorter run of `p` ends right before another `p`
character, which is a word character, so the boundary fails there. -/
def runThenBoundary (p : Char → Bool) : List Char → Bool
  | [] => false
  | c :: cs => p c && boundaryOK (cs.dropWhile p)

/-- `\s+` (maximal): requires at least one whitespace character, consumes the
whole whitespace run, returns the rest. -/
def spacesThen : List Char → Option (List Char)
  | [] => none
  | c :: cs => if isSpaceChar c then some (cs.dropWhile isSpaceChar) else none

/-- `\s+\S`: one-or-more whitespace characters followed by a non-space
character.  With the whitespace run consumed maximally, the next character
(if any) is automatically non-space. -/
def spacesThenNonspace (cs : List Char) : Bool :=
  match spacesThen cs with
  | some rest => !rest.isEmpty
  | none => false

/-- `\.?\s+\S`: optional dot, then whitespace, then a non-space character.
Deterministic: a leading dot is not whitespace, so consuming it when present
is the only way the rest can match. -/
def dotSpacesNonspace : List Char → Bool
  | [] => spacesThenNonspace []
  | a :: tl =>
    if a = '.' then spacesThenNonspace tl else spacesThenNonspace (a :: tl)

/-- Core loop of `\d+(?:\.\d+)*` after its first digit has been consumed:
extends the current run of digits and starts a new dot-separated segment
whenever a dot followed by a digit appears.  Returns the number of segments
seen so far together with the unconsumed rest of the input. -/
def segLoop : Nat → List Char → Nat × List Char
  | n, [] => (n, [])
  | n, c :: cs =>
    if c.isDigit then segLoop n cs
    else if c = '.' then
      match cs with
      | [] => (n, ['.'])
      | d :: ds => if d.isDigit then segLoop (n + 1) ds else (n, '.' :: d :: ds)
    else (n, c :: cs)

/-- Maximal match of `\d+(?:\.\d+)*` at the start of the input: returns the
number of dot-separated numeric segments and the unconsumed rest, or `none`
when the input does not start with a digit.  Backtracking to a shorter match
never helps the patterns of the source: a shorter group ends right before a
digit, or before a dot that is followed by a digit, and in both cases the
source patterns' required continuations (`\.?\s+\S`, `\.?\s*$`, `\s`) fail. -/
def parseNumSeq : List Char → Option (Nat × List Char)
  | [] => none
  | c :: cs => if c.isDigit then some (segLoop 1 cs) else none

/-- `\s*$`. -/
def allSpaces (cs : List Char) : Bool := cs.all isSpaceChar

/-- The `bare` pattern of `_level_from_numbering`:
`^(\d+(?:\.\d+)+)\.?\s*$` applied to the stripped text.  The group requires
at least two numeric segments. -/
def bareNumberLevel (cs : List Char) : Option Nat :=
  match parseNumSeq cs with
  | none => none
  | some (k, rest) =>
    if 2 ≤ k then
      match rest with
      | [] => some (min k 9)
      | a :: rest2 =>
        if a = '.' then (if allSpaces rest2 then some (min k 9) else none)
        else (if allSpaces (a :: rest2) then some (min k 9) else none)
    else none

/-- A literal dot and then one character satisfying `p`. -/
def dotThen (p : Char → Bool) : List Char → Bool
  | a :: d :: _ => a = '.' && p d
  | _ => false

/-- `^\d+\.` followed by one character satisfying `p`: models the checks
`re.match(r"^\d+\.\s", text)` (with `p = isSpaceChar`) and
`re.match(r"^\d+\.\d", text)` (with `p = Char.isDigit`). -/
def matchNumDotThen (p : Char → Bool) : List Char → Bool
  | c :: cs =>
    c.isDigit && dotThen p ((c :: cs).dropWhile Char.isDigit)
  | [] => false

/-- `^\d+\s+[A-Z]{2}`: digits, whitespace, then two ASCII uppercase letters. -/
def matchNumSpaceUpper2 : List Char → Bool
  | c :: cs =>
    c.isDigit &&
      (match spacesThen (cs.dropWhile Char.isDigit) with
       | some (a :: b :: _) => a.isUpper && b.isUpper
       | _ => false)
  | [] => false

/-- `^\d\s+[A-Z][a-z]{4,}`: a single digit, whitespace, an ASCII uppercase
letter, then at least four ASCII lowercase letters. -/
def matchDigitSpaceCapWord : List Char → Bool
  | c :: cs =>
    c.isDigit &&
      (match spacesThen cs with
       | some (u :: l1 :: l2 :: l3 :: l4 :: _) =>
         u.isUpper && l1.isLower && l2.isLower && l3.isLower && l4.isLower
       | _ => false)
  | [] => false

/-- The letter-prefixed pattern `^[A-Z]\.(\d+(?:\.\d+)*)\s` of
`_level_from_numbering`: returns the segment count of the group. -/
def letterPrefixedSegs : List Char → Option Nat
  | u :: a :: rest =>
    if u.isUpper && a = '.' then
      match parseNumSeq rest with
      | some (k, s :: _) => if isSpaceChar s then some k else none
      | _ => none
    else none
  | _ => none

/-- Embedding of `_level_from_numbering(text)` (docling_parser.py:557-601),
on the character list of the text.  Mirrors the source: first the bare
pattern on the stripped text, then the numbered-section pattern
`^(\d+(?:\.\d+)*)(\.?\s+\S)` with the four single-segment exception checks,
then the letter-prefixed pattern. -/
def levelFromNumberingL (cs : List Char) : Option Nat :=
  match bareNumberLevel (pyStrip cs) with
  | some k => some k
  | none =>
    match parseNumSeq cs with
    | some (k, rest) =>
      if dotSpacesNonspace rest then
        if k = 1
            && !matchNumDotThen isSpaceChar cs
            && !matchNumDotThen Char.isDigit cs
            && !matchNumSpaceUpper2 cs
            && !matchDigitSpaceCapWord cs then
          none
        else
          some (min k 9)
      else
        -- the numbered-section pattern failed; the letter-prefixed pattern
        -- cannot match either (the text starts with a digit, not [A-Z])
        match letterPrefixedSegs cs with
        | some k2 => some (min (k2 + 1) 9)
        | none => none
    | none =>
      match letterPrefixedSegs cs with
      | some k2 => some (min (k2 + 1) 9)
      | none => none

/-- `_level_from_numbering` on a `String`. -/
def level_from_numbering (text : String) : Option Nat :=
  levelFromNumberingL text.data

/-- Tail of the structural-marker patterns after a keyword:
`\s+(?:[IVXLCDM]+|[A-Z]|\d+)\b` when `allowLetter` is true (the
`_LEVEL1_STRUCTURAL_RE` alternation), `\s+(?:[IVXLCDM]+|\d+)\b` otherwise
(the `_STRUCTURAL_MARKER_RE` alternation).  `[A-Z]` under `re.IGNORECASE`
matches any ASCII letter. -/
def structuralTail (allowLetter : Bool) (cs : List Char) : Bool :=
  match spacesThen cs with
  | none => false
  | some r =>
    runThenBoundary isRomanChar r ||
    (allowLetter &&
      (match r with
       | c :: rest => c.isAlpha && boundaryOK rest
       | [] => false)) ||
    runThenBoundary Char.isDigit r

/-- Case-insensitive literal keyword match; returns the rest of the input. -/
def matchKeywordCI : List Char → List Char → Option (List Char)
  | [], cs => some cs
  | _ :: _, [] => none
  | k :: ks, c :: cs => if c.toLower = k.toLower then matchKeywordCI ks cs else none

/-- One of the listed keywords (case-insensitively), then the structural
tail. -/
def keywordThenTail (kws : List (List Char)) (allowLetter : Bool)
    (cs : List Char) : Bool :=
  kws.any fun kw =>
    match matchKeywordCI kw cs with
    | some r => structuralTail allowLetter r
    | none => false

/-- Embedding of `_is_structural_marker(text)` (docling_parser.py:608-621):
`_STRUCTURAL_MARKER_RE = ^(?:PART|CHAPTER)\s+(?:[IVXLCDM]+|\d+)\b` with
`re.IGNORECASE`, applied to `text.strip()`. -/
def is_structural_marker (text : String) : Bool :=
  keywordThenTail ["PART".data, "CHAPTER".data] false (pyStrip text.data)

/-- Embedding of `_is_level1_structural(text)`:
`_LEVEL1_STRUCTURAL_RE =
^(?:PART|CHAPTER|APPENDIX|EXHIBIT|ANNEX)\s+(?:[IVXLCDM]+|[A-Z]|\d+)\b` with
`re.IGNORECASE`, applied to `text.strip()`. -/
def is_level1_structural (text : String) : Bool :=
  keywordThenTail
    ["PART".data, "CHAPTER".data, "APPENDIX".data, "EXHIBIT".data, "ANNEX".data]
    true (pyStrip text.data)

/-- The promotion pattern `_MULTI_LEVEL_NUMBER_RE = ^(\d+(?:\.\d+)+)\.?\s+\S`:
returns the segment count (always at least 2) on a match. -/
def multiLevelNumberMatch (cs : List Char) : Option Nat :=
  match parseNumSeq cs with
  | some (k, rest) => if 2 ≤ k && dotSpacesNonspace rest then some k else none
  | none => none

/-!
Data model, embedded from `src/pdf_converter/ir/schema.py`.  Python `float`
fields (`confidence`, `width_inches`, `height_inches`) are modelled as `ℚ`
(their JSON-number values), `int` fields as `Int`, `Optional[T]` as
`Option T`.  The pydantic `default_factory=_make_id` draws a fresh random
uuid; no claim depends on id values, so blocks created inside the pipeline
are modelled with the constant id `""`.
-/

/-- `TextRun` (schema.py): a span of text with inline formatting. -/
structure TextRun where
  text : String
  bold : Bool := false
  italic : Bool := false
  underline : Bool := false
  strikethrough : Bool := false
  superscript : Bool := false
  subscript : Bool := false
  highlight : Option String := none
deriving Repr, DecidableEq

/-- `ListItem` (schema.py): a list entry with nested sub-items. -/
inductive ListItem where
  | mk (text : String) (runs : List TextRun) (children : List ListItem)
deriving Repr

/-- `TableCell` (schema.py). -/
structure TableCell where
  row : Int
  col : Int
  row_span : Int := 1
  col_span : Int := 1
  text : String := ""
  runs : List TextRun := []
deriving Repr, DecidableEq

/-- The `style` literal of `ListBlock`: `"ordered" | "unordered"`. -/
inductive ListStyle where
  | ordered
  | unordered
deriving Repr, DecidableEq

/-- The discriminated union of block types (schema.py `IRBlock`), with
`HeadingBlock.children` making it recursive.  Constructor argument order
follows the pydantic field declaration order. -/
inductive IRBlock where
  | paragraph (id : String) (page : Option Int) (text : String)
      (runs : List TextRun)
  | listBlock (id : String) (page : Option Int) (style : ListStyle)
      (marker_format : Option String) (items : List ListItem)
  | table (id : String) (page : Option Int) (num_rows : Int) (num_cols : Int)
      (cells : List TableCell)
  | figure (id : String) (page : Option Int) (image_path : Option String)
      (image_base64 : Option String) (caption : String)
      (width_inches : Option ℚ) (height_inches : Option ℚ)
  | pageBreak (id : String) (page : Option Int)
  | heading (id : String) (page : Option Int) (level : Int) (text : String)
      (runs : List TextRun) (children : List IRBlock) (confidence : ℚ)
      (classification_reason : Option String)
deriving Repr

/-- `_PendingListItem` (docling_parser.py:43-51): temporary holder for a
Docling list item before grouping. -/
structure PendingListItem where
  text : String
  runs : List TextRun := []
  page : Option Int := none
  enumerated : Bool := false
  marker : String := ""
  nesting_depth : Int := 0
deriving Repr

/-- An entry of the mixed element list flowing through the classification
stages: either an IR block or a `_PendingListItem`. -/
inductive GElem where
  | blk (b : IRBlock)
  | pend (p : PendingListItem)
deriving Repr

/-- Model of `_make_id`: the uuid drawn for blocks created inside the
pipeline is nondeterministic and never inspected, modelled as `""`. -/
def mkId : String := ""

/-!  Numbered-element promoters (docling_parser.py:661-743). -/

/-- Embedding of `_promote_numbered_paragraphs` (docling_parser.py:665-702):
paragraphs whose text matches `_MULTI_LEVEL_NUMBER_RE` become placeholder
headings; 3+ segments always promote (confidence 0.90), 2 segments promote
only when the text is under 120 characters (confidence 0.70). -/
def promote_numbered_paragraphs (elements : List GElem) : List GElem :=
  elements.map fun el =>
    match el with
    | .blk (.paragraph _ pg tx rns) =>
      match multiLevelNumberMatch tx.data with
      | some k =>
        if 3 ≤ k then
          .blk (.heading mkId pg 2 tx rns [] ((90 : ℚ)/100)
            (some ("promoted:multi_level_" ++ toString k ++ "_parts")))
        else if tx.length < 120 then
          .blk (.heading mkId pg 2 tx rns [] ((70 : ℚ)/100)
            (some ("promoted:two_level_" ++ toString tx.length ++ "_chars")))
        else el
      | none => el
    | _ => el

/-- Embedding of `_promote_numbered_list_items` (docling_parser.py:713-743):
the same rule applied to `_PendingListItem` entries (confidence 0.85 / 0.65). -/
def promote_numbered_list_items (elements : List GElem) : List GElem :=
  elements.map fun el =>
    match el with
    | .pend p =>
      match multiLevelNumberMatch p.text.data with
      | some k =>
        if 3 ≤ k then
          .blk (.heading mkId p.page 2 p.text p.runs [] ((85 : ℚ)/100)
            (some ("promoted_list_item:multi_level_" ++ toString k ++ "_parts")))
        else if p.text.length < 120 then
          .blk (.heading mkId p.page 2 p.text p.runs [] ((65 : ℚ)/100)
            (some ("promoted_list_item:two_level_" ++ toString p.text.length
              ++ "_chars")))
        else el
      | none => el
    | _ => el

/-!  Heading level resolver (docling_parser.py:751-795). -/

/-- The two pieces of state of `_resolve_heading_levels`' forward pass. -/
structure ResolveState where
  first_heading_seen : Bool
  last_level : Int
deriving Repr, DecidableEq

/-- Appending of a level-derivation tag to `classification_reason`. -/
def appendReason (rs : Option String) (tag : String) : Option String :=
  match rs with
  | some r => some (r ++ "; level:" ++ tag)
  | none => some ("level:" ++ tag)

/-- One step of `_resolve_heading_levels`' loop body: non-headings pass
through untouched (and leave the state untouched); a heading gets its level
from the first applicable rule (structural marker, numbering, first heading
as title, inherit) and updates `last_level` / `first_heading_seen`. -/
def resolveStep (offset : Int) (st : ResolveState) (el : GElem) :
    ResolveState × GElem :=
  match el with
  | .blk (.heading id pg _ tx rns ch cf rs) =>
    if is_level1_structural tx then
      (⟨true, 1⟩,
        .blk (.heading id pg 1 tx rns ch (max cf ((95 : ℚ)/100))
          (appendReason rs "structural_marker")))
    else
      match level_from_numbering tx with
      | some n =>
        let lv := min ((n : Int) + offset) 9
        (⟨true, lv⟩,
          .blk (.heading id pg lv tx rns ch cf
            (appendReason rs
              ("numbering:" ++ toString n ++ "+offset_" ++ toString offset))))
      | none =>
        if !st.first_heading_seen then
          (⟨true, 1⟩,
            .blk (.heading id pg 1 tx rns ch (min cf ((80 : ℚ)/100))
              (appendReason rs "first_heading_as_title")))
        else
          let lv := st.last_level
          (⟨true, lv⟩,
            .blk (.heading id pg lv tx rns ch (min cf ((50 : ℚ)/100))
              (appendReason rs ("inherited_" ++ toString lv))))
  | _ => (st, el)

/-- The forward pass of `_resolve_heading_levels` with explicit state. -/
def resolveAux (offset : Int) (st : ResolveState) : List GElem → List GElem
  | [] => []
  | el :: els =>
    (resolveStep offset st el).2 ::
      resolveAux offset (resolveStep offset st el).1 els

/-- Embedding of `_resolve_heading_levels(elements, has_parts)`
(docling_parser.py:755-795): level_offset = 1 when `has_parts` else 0,
`first_heading_seen` starts false, `last_level` starts 2.  The source
mutates the list in place; the embedding returns the updated list. -/
def resolve_heading_levels (elements : List GElem) (has_parts : Bool) :
    List GElem :=
  resolveAux (if has_parts then 1 else 0) ⟨false, 2⟩ elements

/-- The level of a heading element, `none` for anything else. -/
def elemLevel? : GElem → Option Int
  | .blk (.heading _ _ lv _ _ _ _ _) => some lv
  | _ => none

/-- The heading levels of an element sequence, in order. -/
def headingLevels (elements : List GElem) : List Int :=
  elements.filterMap elemLevel?

/-!  List grouping (docling_parser.py:800-893). -/

/-- `^(?:i{1,3}|iv|vi{0,3}|ix|x)[.)]` with `re.IGNORECASE`
(`_LOWER_ROMAN_RE`), as a deterministic matcher. -/
def isDotParen (c : Char) : Bool := c = '.' || c = ')'

/-- Tail of the `vi{0,3}[.)]` alternative: up to `k` more `i`s, then `.` or
`)`. -/
def viTail : List Char → Nat → Bool
  | [], _ => false
  | c :: cs, k =>
    if isDotParen c then true
    else if c.toLower = 'i' && 0 < k then viTail cs (k - 1)
    else false

/-- The `_LOWER_ROMAN_RE` pattern (case-insensitive core; the case of the
first character is tested separately by `_detect_marker_format`). -/
def romanMarkerMatch : List Char → Bool
  | [] => false
  | c0 :: rest =>
    if c0.toLower = 'i' then
      match rest with
      | [] => false
      | c1 :: rest1 =>
        if isDotParen c1 then true
        else if c1.toLower = 'i' then
          match rest1 with
          | [] => false
          | c2 :: rest2 =>
            if isDotParen c2 then true
            else if c2.toLower = 'i' then
              match rest2 with
              | c3 :: _ => isDotParen c3
              | [] => false
            else false
        else if c1.toLower = 'v' || c1.toLower = 'x' then
          match rest1 with
          | c2 :: _ => isDotParen c2
          | [] => false
        else false
    else if c0.toLower = 'v' then viTail rest 3
    else if c0.toLower = 'x' then
      match rest with
      | c1 :: _ => isDotParen c1
      | [] => false
    else false

/-- `^[a-z][.)]` (`_LOWER_LETTER_RE`). -/
def lowerLetterMatch : List Char → Bool
  | c :: d :: _ => c.isLower && isDotParen d
  | _ => false

/-- `^[A-Z][.)]` (`_UPPER_LETTER_RE`). -/
def upperLetterMatch : List Char → Bool
  | c :: d :: _ => c.isUpper && isDotParen d
  | _ => false

/-- Loop body of `_detect_marker_format` over the first items: skip empty
markers, decide on the first non-empty one. -/
def detectMarkerGo : List PendingListItem → Option String
  | [] => none
  | it :: rest =>
    match pyStrip it.marker.data with
    | [] => detectMarkerGo rest
    | c :: m =>
      if romanMarkerMatch (c :: m) && c.isLower then some "lowerRoman"
      else if lowerLetterMatch (c :: m) then some "lowerLetter"
      else if romanMarkerMatch (c :: m) && c.isUpper then some "upperRoman"
      else if upperLetterMatch (c :: m) then some "upperLetter"
      else none

/-- Embedding of `_detect_marker_format(items)` (docling_parser.py:800-830):
inspects the first three items' markers. -/
def detect_marker_format (items : List PendingListItem) : Option String :=
  detectMarkerGo (items.take 3)

/-- A stack frame of `_nest_list_items`: the item under construction with its
normalized depth; children accumulate in reverse. -/
structure NestFrame where
  depth : Int
  text : String
  runs : List TextRun
  revChildren : List ListItem

/-- Close a frame into a `ListItem`. -/
def closeFrame (f : NestFrame) : ListItem :=
  .mk f.text f.runs f.revChildren.reverse

/-- The `while stack and stack[-1][0] >= depth: stack.pop()` loop of
`_nest_list_items`.  In the source an item is appended to its parent's
`children` the moment it is created; the embedding attaches it when its
frame is popped, which preserves the order of every `children` list (while a
frame sits above its parent, nothing else can be attached to the parent). -/
def nestPop (d : Int) (stack : List NestFrame) (revRoots : List ListItem) :
    List NestFrame × List ListItem :=
  match stack.span (fun f => d ≤ f.depth) with
  | (popped, kept) =>
    match popped with
    | [] => (stack, revRoots)
    | f1 :: rest =>
      let li := rest.foldl
        (fun li (g : NestFrame) =>
          closeFrame { g with revChildren := li :: g.revChildren })
        (closeFrame f1)
      match kept with
      | [] => ([], li :: revRoots)
      | g :: gs => ({ g with revChildren := li :: g.revChildren } :: gs, revRoots)

/-- One item of `_nest_list_items`' loop: pop frames of depth ≥ the item's
normalized depth, then push the item's own frame. -/
def nestStep (base : Int) (st : List NestFrame × List ListItem)
    (p : PendingListItem) : List NestFrame × List ListItem :=
  let d := p.nesting_depth - base
  let (stack, revRoots) := nestPop d st.1 st.2
  (⟨d, p.text, p.runs, []⟩ :: stack, revRoots)

/-- Embedding of `_nest_list_items(pending)` (docling_parser.py:866-893):
depths are normalized against the first item's depth; a stack converts the
flat run into nested `ListItem`s. -/
def nest_list_items : List PendingListItem → List ListItem
  | [] => []
  | p :: ps =>
    let base := p.nesting_depth
    let (stack, revRoots) := (p :: ps).foldl (nestStep base) ([], [])
    -- close every remaining frame, innermost first
    let revRoots2 :=
      match stack with
      | [] => revRoots
      | f1 :: rest =>
        (rest.foldl
          (fun li (g : NestFrame) =>
            closeFrame { g with revChildren := li :: g.revChildren })
          (closeFrame f1)) :: revRoots
    revRoots2.reverse

/-- The flush of `_group_list_items`: one `ListBlock` from a non-empty buffer.
Style and page come from the first buffered item; the marker format is
detected only for ordered lists. -/
def flushPending : List PendingListItem → List IRBlock
  | [] => []
  | p :: ps =>
    let ordered := p.enumerated
    [IRBlock.listBlock mkId p.page
      (if ordered then ListStyle.ordered else ListStyle.unordered)
      (if ordered then detect_marker_format (p :: ps) else none)
      (nest_list_items (p :: ps))]

/-- The scan of `_group_list_items` with its explicit pending buffer. -/
def groupAux (pending : List PendingListItem) : List GElem → List IRBlock
  | [] => flushPending pending
  | .pend p :: els => groupAux (pending ++ [p]) els
  | .blk b :: els => flushPending pending ++ b :: groupAux [] els

/-- Embedding of `_group_list_items(elements)` (docling_parser.py:837-862):
consecutive `_PendingListItem`s collapse into one `ListBlock`; any other
element flushes the buffer. -/
def group_list_items (elements : List GElem) : List IRBlock :=
  groupAux [] elements

/-!  Heading tree builder (docling_parser.py:900-944). -/

/-- The level of a heading block, `none` for other blocks. -/
def headingLevel? : IRBlock → Option Int
  | .heading _ _ lv _ _ _ _ _ => some lv
  | _ => none

/-- A stack frame of `_build_heading_tree`: the heading as it arrived plus the
children attached to it so far (in reverse). -/
structure BuildFrame where
  level : Int
  block : IRBlock
  extra : List IRBlock

/-- Close a frame: the heading with the accumulated children appended after
any children it already carried. -/
def closeBuildFrame (f : BuildFrame) : IRBlock :=
  match f.block with
  | .heading id pg lv tx rns ch cf rs =>
    .heading id pg lv tx rns (ch ++ f.extra.reverse) cf rs
  | b => b

/-- The state of `_build_heading_tree`: the root list (reversed) and the
stack of open headings (top first). -/
structure BuildState where
  revRoot : List IRBlock
  stack : List BuildFrame

/-- Attach a finished block to the current stack top's children, or to the
root when the stack is empty. -/
def attachB (b : IRBlock) (st : BuildState) : BuildState :=
  match st.stack with
  | [] => { st with revRoot := b :: st.revRoot }
  | f :: fs => { st with stack := { f with extra := b :: f.extra } :: fs }

/-- The `while stack and stack[-1][0] >= block.level: stack.pop()` loop.  As
with list nesting, the source attaches a heading to its parent when it is
pushed and mutates it afterwards; the embedding closes and attaches each
popped frame to the frame below it (or to the root), which yields the same
children lists in the same order. -/
def popWhileGE (lv : Int) (st : BuildState) : BuildState :=
  match st.stack.span (fun f => lv ≤ f.level) with
  | (popped, kept) =>
    match popped with
    | [] => st
    | f1 :: rest =>
      let b := rest.foldl
        (fun b (g : BuildFrame) =>
          closeBuildFrame { g with extra := b :: g.extra })
        (closeBuildFrame f1)
      match kept with
      | [] => { revRoot := b :: st.revRoot, stack := [] }
      | g :: gs =>
        { revRoot := st.revRoot, stack := { g with extra := b :: g.extra } :: gs }

/-- One element of `_build_heading_tree`'s loop. -/
def buildStep (st : BuildState) (b : IRBlock) : BuildState :=
  match headingLevel? b with
  | some lv =>
    let st2 := popWhileGE lv st
    { st2 with stack := ⟨lv, b, []⟩ :: st2.stack }
  | none => attachB b st

/-- End of input: close every remaining frame, innermost first. -/
def finalizeBuild (st : BuildState) : List IRBlock :=
  match st.stack with
  | [] => st.revRoot.reverse
  | f1 :: rest =>
    let b := rest.foldl
      (fun b (g : BuildFrame) =>
        closeBuildFrame { g with extra := b :: g.extra })
      (closeBuildFrame f1)
    (b :: st.revRoot).reverse

/-- Embedding of `_build_heading_tree(flat_elements)`
(docling_parser.py:900-944). -/
def build_heading_tree (flat_elements : List IRBlock) : List IRBlock :=
  finalizeBuild (flat_elements.foldl buildStep ⟨[], []⟩)

/-!
External JSON form (schema.py:189-203, `DocumentIR.to_json` /
`DocumentIR.from_json`).  The embedding works on a JSON value tree rather
than the serialized byte string: JSON numbers carry their exact rational
value (Python's `float` repr round-trips exactly, `int` likewise).
`to_json` emits every field in pydantic declaration order, as
`model_dump_json` does; `from_json` models `model_validate_json` on such
documents, including pydantic's field constraints (`level` in 1..9,
`confidence` in [0,1]). -/

inductive Json where
  | null
  | bool (b : Bool)
  | num (q : ℚ)
  | str (s : String)
  | arr (elems : List Json)
  | obj (fields : List (String × Json))
deriving Repr

/-- `FurnitureType` (schema.py): the header/footer enum. -/
inductive FurnitureType where
  | header
  | footer
deriving Repr, DecidableEq

/-- `FurnitureItem` (schema.py). -/
structure FurnitureItem where
  type : FurnitureType
  text : String := ""
  pages : List Int := []
deriving Repr, DecidableEq

/-- `DocumentMetadata` (schema.py). -/
structure DocumentMetadata where
  source_file : String := ""
  source_hash : String := ""
  parser : String := ""
  parser_version : String := ""
  page_count : Int := 0
  title : String := ""
deriving Repr, DecidableEq

/-- `DocumentIR` (schema.py): the complete intermediate representation. -/
structure DocumentIR where
  metadata : DocumentMetadata
  body : List IRBlock
  furniture : List FurnitureItem
deriving Repr

def jsonOfInt (i : Int) : Json := .num (i : ℚ)

def jsonOfOptInt : Option Int → Json
  | none => .null
  | some i => jsonOfInt i

def jsonOfOptStr : Option String → Json
  | none => .null
  | some s => .str s

def jsonOfOptNum : Option ℚ → Json
  | none => .null
  | some q => .num q

def jInt? : Json → Option Int
  | .num q => if q.den = 1 then some q.num else none
  | _ => none

def jOptInt? : Json → Option (Option Int)
  | .null => some none
  | .num q => if q.den = 1 then some (some q.num) else none
  | _ => none

def jOptStr? : Json → Option (Option String)
  | .null => some none
  | .str s => some (some s)
  | _ => none

def jOptNum? : Json → Option (Option ℚ)
  | .null => some none
  | .num q => some (some q)
  | _ => none

def textRunToJson (r : TextRun) : Json :=
  .obj [("text", .str r.text), ("bold", .bool r.bold),
    ("italic", .bool r.italic), ("underline", .bool r.underline),
    ("strikethrough", .bool r.strikethrough),
    ("superscript", .bool r.superscript), ("subscript", .bool r.subscript),
    ("highlight", jsonOfOptStr r.highlight)]

def textRunFromJson : Json → Option TextRun
  | .obj [("text", .str tx), ("bold", .bool b), ("italic", .bool i),
      ("underline", .bool u), ("strikethrough", .bool st),
      ("superscript", .bool sup), ("subscript", .bool sub),
      ("highlight", hj)] =>
    match jOptStr? hj with
    | some h => some ⟨tx, b, i, u, st, sup, sub, h⟩
    | none => none
  | _ => none

def runsToJson (rs : List TextRun) : Json := .arr (rs.map textRunToJson)

def runsFromJson : List Json → Option (List TextRun)
  | [] => some []
  | j :: js =>
    match textRunFromJson j, runsFromJson js with
    | some r, some rs => some (r :: rs)
    | _, _ => none

mutual

def listItemToJson : ListItem → Json
  | .mk tx rs cs =>
    .obj [("text", .str tx), ("runs", runsToJson rs),
      ("children", .arr (listItemsToJson cs))]

def listItemsToJson : List ListItem → List Json
  | [] => []
  | c :: cs => listItemToJson c :: listItemsToJson cs

end

mutual

def listItemFromJson : Json → Option ListItem
  | .obj [("text", .str tx), ("runs", .arr rjs), ("children", .arr cjs)] =>
    match runsFromJson rjs, listItemsFromJson cjs with
    | some rs, some cs => some (.mk tx rs cs)
    | _, _ => none
  | _ => none

def listItemsFromJson : List Json → Option (List ListItem)
  | [] => some []
  | j :: js =>
    match listItemFromJson j, listItemsFromJson js with
    | some c, some cs => some (c :: cs)
    | _, _ => none

end

def tableCellToJson (c : TableCell) : Json :=
  .obj [("row", jsonOfInt c.row), ("col", jsonOfInt c.col),
    ("row_span", jsonOfInt c.row_span), ("col_span", jsonOfInt c.col_span),
    ("text", .str c.text), ("runs", runsToJson c.runs)]

def tableCellFromJson : Json → Option TableCell
  | .obj [("row", rj), ("col", cj), ("row_span", rsj), ("col_span", csj),
      ("text", .str tx), ("runs", .arr rjs)] =>
    match jInt? rj, jInt? cj, jInt? rsj, jInt? csj, runsFromJson rjs with
    | some r, some c, some rs, some cs, some runs =>
      some ⟨r, c, rs, cs, tx, runs⟩
    | _, _, _, _, _ => none
  | _ => none

def tableCellsFromJson : List Json → Option (List TableCell)
  | [] => some []
  | j :: js =>
    match tableCellFromJson j, tableCellsFromJson js with
    | some c, some cs => some (c :: cs)
    | _, _ => none

def listStyleStr : ListStyle → String
  | .ordered => "ordered"
  | .unordered => "unordered"

def listStyleOfStr : String → Option ListStyle
  | "ordered" => some .ordered
  | "unordered" => some .unordered
  | _ => none

mutual

def blockToJson : IRBlock → Json
  | .paragraph id pg tx rns =>
    .obj [("type", .str "paragraph"), ("id", .str id),
      ("page", jsonOfOptInt pg), ("text", .str tx), ("runs", runsToJson rns)]
  | .listBlock id pg sty mf items =>
    .obj [("type", .str "list"), ("id", .str id), ("page", jsonOfOptInt pg),
      ("style", .str (listStyleStr sty)), ("marker_format", jsonOfOptStr mf),
      ("items", .arr (listItemsToJson items))]
  | .table id pg nr nc cells =>
    .obj [("type", .str "table"), ("id", .str id), ("page", jsonOfOptInt pg),
      ("num_rows", jsonOfInt nr), ("num_cols", jsonOfInt nc),
      ("cells", .arr (cells.map tableCellToJson))]
  | .figure id pg ip ib cap w h =>
    .obj [("type", .str "figure"), ("id", .str id), ("page", jsonOfOptInt pg),
      ("image_path", jsonOfOptStr ip), ("image_base64", jsonOfOptStr ib),
      ("caption", .str cap), ("width_inches", jsonOfOptNum w),
      ("height_inches", jsonOfOptNum h)]
  | .pageBreak id pg =>
    .obj [("type", .str "page_break"), ("id", .str id),
      ("page", jsonOfOptInt pg)]
  | .heading id pg lv tx rns ch cf rs =>
    .obj [("type", .str "heading"), ("id", .str id), ("page", jsonOfOptInt pg),
      ("level", jsonOfInt lv), ("text", .str tx), ("runs", runsToJson rns),
      ("children", .arr (blocksToJson ch)), ("confidence", .num cf),
      ("classification_reason", jsonOfOptStr rs)]

def blocksToJson : List IRBlock → List Json
  | [] => []
  | b :: bs => blockToJson b :: blocksToJson bs

end

def paragraphFieldsFromJson : List (String × Json) → Option IRBlock
  | [("id", .str id), ("page", pj), ("text", .str tx), ("runs", .arr rjs)] =>
    match jOptInt? pj, runsFromJson rjs with
    | some pg, some rns => some (.paragraph id pg tx rns)
    | _, _ => none
  | _ => none

def listFieldsFromJson : List (String × Json) → Option IRBlock
  | [("id", .str id), ("page", pj), ("style", .str stys),
      ("marker_format", mfj), ("items", .arr ijs)] =>
    match jOptInt? pj, listStyleOfStr stys, jOptStr? mfj,
        listItemsFromJson ijs with
    | some pg, some sty, some mf, some items =>
      some (.listBlock id pg sty mf items)
    | _, _, _, _ => none
  | _ => none

def tableFieldsFromJson : List (String × Json) → Option IRBlock
  | [("id", .str id), ("page", pj), ("num_rows", nrj), ("num_cols", ncj),
      ("cells", .arr cjs)] =>
    match jOptInt? pj, jInt? nrj, jInt? ncj, tableCellsFromJson cjs with
    | some pg, some nr, some nc, some cells => some (.table id pg nr nc cells)
    | _, _, _, _ => none
  | _ => none

def figureFieldsFromJson : List (String × Json) → Option IRBlock
  | [("id", .str id), ("page", pj), ("image_path", ipj),
      ("image_base64", ibj), ("caption", .str cap), ("width_inches", wj),
      ("height_inches", hj)] =>
    match jOptInt? pj, jOptStr? ipj, jOptStr? ibj, jOptNum? wj,
        jOptNum? hj with
    | some pg, some ip, some ib, some w, some h =>
      some (.figure id pg ip ib cap w h)
    | _, _, _, _, _ => none
  | _ => none

def pageBreakFieldsFromJson : List (String × Json) → Option IRBlock
  | [("id", .str id), ("page", pj)] =>
    match jOptInt? pj with
    | some pg => some (.pageBreak id pg)
    | none => none
  | _ => none

mutual

/-- `model_validate_json` on a serialized block: the `IRBlock` union is
discriminated on the `type` field (schema.py:119-148), and the matching
model validates the exact remaining field shape. -/
def blockFromJson : Json → Option IRBlock
  | .obj (("type", .str ty) :: fs) =>
    if ty = "heading" then
      match fs with
      | [("id", .str id), ("page", pj), ("level", lj), ("text", .str tx),
          ("runs", .arr rjs), ("children", .arr cjs), ("confidence", .num cf),
          ("classification_reason", rj)] =>
        match jOptInt? pj, jInt? lj, runsFromJson rjs, blocksFromJson cjs,
            jOptStr? rj with
        | some pg, some lv, some rns, some ch, some rs =>
          -- pydantic field constraints: level ge=1 le=9, confidence ge=0 le=1
          if 1 ≤ lv ∧ lv ≤ 9 then
            if 0 ≤ cf ∧ cf ≤ 1 then some (.heading id pg lv tx rns ch cf rs)
            else none
          else none
        | _, _, _, _, _ => none
      | _ => none
    else if ty = "paragraph" then paragraphFieldsFromJson fs
    else if ty = "list" then listFieldsFromJson fs
    else if ty = "table" then tableFieldsFromJson fs
    else if ty = "figure" then figureFieldsFromJson fs
    else if ty = "page_break" then pageBreakFieldsFromJson fs
    else none
  | _ => none

def blocksFromJson : List Json → Option (List IRBlock)
  | [] => some []
  | j :: js =>
    match blockFromJson j, blocksFromJson js with
    | some b, some bs => some (b :: bs)
    | _, _ => none

end

def furnitureTypeStr : FurnitureType → String
  | .header => "header"
  | .footer => "footer"

def furnitureTypeOfStr : String → Option FurnitureType
  | "header" => some .header
  | "footer" => some .footer
  | _ => none

def pagesToJson (ps : List Int) : Json := .arr (ps.map jsonOfInt)

def pagesFromJson : List Json → Option (List Int)
  | [] => some []
  | j :: js =>
    match jInt? j, pagesFromJson js with
    | some p, some ps => some (p :: ps)
    | _, _ => none

def furnitureToJson (f : FurnitureItem) : Json :=
  .obj [("type", .str (furnitureTypeStr f.type)), ("text", .str f.text),
    ("pages", pagesToJson f.pages)]

def furnitureFromJson : Json → Option FurnitureItem
  | .obj [("type", .str tys), ("text", .str tx), ("pages", .arr pjs)] =>
    match furnitureTypeOfStr tys, pagesFromJson pjs with
    | some ty, some ps => some ⟨ty, tx, ps⟩
    | _, _ => none
  | _ => none

def furnituresFromJson : List Json → Option (List FurnitureItem)
  | [] => some []
  | j :: js =>
    match furnitureFromJson j, furnituresFromJson js with
    | some f, some fs => some (f :: fs)
    | _, _ => none

def metadataToJson (m : DocumentMetadata) : Json :=
  .obj [("source_file", .str m.source_file), ("source_hash", .str m.source_hash),
    ("parser", .str m.parser), ("parser_version", .str m.parser_version),
    ("page_count", jsonOfInt m.page_count), ("title", .str m.title)]

def metadataFromJson : Json → Option DocumentMetadata
  | .obj [("source_file", .str sf), ("source_hash", .str sh), ("parser", .str p),
      ("parser_version", .str pv), ("page_count", pcj), ("title", .str t)] =>
    match jInt? pcj with
    | some pc => some ⟨sf, sh, p, pv, pc, t⟩
    | none => none
  | _ => none

/-- `DocumentIR.to_json` (schema.py:195-197), at the JSON-value level. -/
def to_json (d : DocumentIR) : Json :=
  .obj [("metadata", metadataToJson d.metadata),
    ("body", .arr (blocksToJson d.body)),
    ("furniture", .arr (d.furniture.map furnitureToJson))]

/-- `DocumentIR.from_json` (schema.py:199-203), at the JSON-value level. -/
def from_json (j : Json) : Option DocumentIR :=
  match j with
  | .obj [("metadata", mj), ("body", .arr bjs), ("furniture", .arr fjs)] =>
    match metadataFromJson mj, blocksFromJson bjs, furnituresFromJson fjs with
    | some m, some bs, some fs => some ⟨m, bs, fs⟩
    | _, _, _ => none
  | _ => none

mutual

/-- Well-formedness of a block tree under pydantic's declared field
constraints: every heading has `level` in 1..9 and `confidence` in [0,1]
(`model_validate_json` re-checks these on parsing). -/
def wfBlock : IRBlock → Prop
  | .heading _ _ lv _ _ ch cf _ =>
    (1 ≤ lv ∧ lv ≤ 9) ∧ (0 ≤ cf ∧ cf ≤ 1) ∧ wfBlocks ch
  | _ => True

def wfBlocks : List IRBlock → Prop
  | [] => True
  | b :: bs => wfBlock b ∧ wfBlocks bs

end

/-- Well-formedness of a document: its body blocks are well-formed. -/
def wfDoc (d : DocumentIR) : Prop := wfBlocks d.body

/-!
Specification-side definitions.  These follow the spec's words (spec.md
sections 4.1 and 4.6), for comparison with the embeddings above.
-/

/-- Attach extra children after a heading's existing children (identity on
non-headings). -/
def withChildren (b : IRBlock) (kids : List IRBlock) : IRBlock :=
  match b with
  | .heading id pg lv tx rns ch cf rs =>
    .heading id pg lv tx rns (ch ++ kids) cf rs
  | _ => b

/-- Spec-side recursive description of the heading tree (spec.md section 4.6
invariant): under a parent of level `bound`, the children forest consists of
everything up to — but not including — the first heading of level ≤ `bound`;
each heading in it recursively owns the span that follows it.  Returns the
forest and the unconsumed remainder (which is a suffix of the input, used
for termination). -/
def specBuild (bound : Int) : (blocks : List IRBlock) →
    { p : List IRBlock × List IRBlock // p.2 <:+ blocks }
  | [] => ⟨([], []), List.suffix_refl []⟩
  | b :: bs =>
    match headingLevel? b with
    | some lv =>
      if lv ≤ bound then ⟨([], b :: bs), List.suffix_refl _⟩
      else
        match specBuild lv bs with
        | ⟨(kids, rest), h1⟩ =>
          match specBuild bound rest with
          | ⟨(sibs, rest2), h2⟩ =>
            ⟨(withChildren b kids :: sibs, rest2),
              h2.trans (h1.trans (List.suffix_cons b bs))⟩
    | none =>
      match specBuild bound bs with
      | ⟨(sibs, rest), h⟩ =>
        ⟨(b :: sibs, rest), h.trans (List.suffix_cons b bs)⟩
termination_by blocks => blocks.length
decreasing_by
  · simp only [List.length_cons]; omega
  · have := h1.length_le
    simp only [List.length_cons] at *; omega
  · simp only [List.length_cons]; omega

/-- Spec-side description of the whole tree: at the document root every
heading owns the span that follows it up to the next heading of level ≤ its
own. -/
def specForest : (blocks : List IRBlock) → List IRBlock
  | [] => []
  | b :: bs =>
    match headingLevel? b with
    | some lv =>
      match specBuild lv bs with
      | ⟨(kids, rest), h1⟩ => withChildren b kids :: specForest rest
    | none => b :: specForest bs
termination_by blocks => blocks.length
decreasing_by
  · have := h1.length_le
    simp only [List.length_cons] at *; omega
  · simp only [List.length_cons]; omega

mutual

/-- Every heading anywhere inside these trees has level strictly greater
than `bound`. -/
def allHeadingLevelsGt (bound : Int) : List IRBlock → Bool
  | [] => true
  | b :: bs => blockLevelsGt bound b && allHeadingLevelsGt bound bs

/-- Every heading anywhere inside this tree (the root included, when it is a
heading) has level strictly greater than `bound`. -/
def blockLevelsGt (bound : Int) : IRBlock → Bool
  | .heading _ _ lv _ _ ch _ _ => bound < lv && allHeadingLevelsGt bound ch
  | _ => true

end

mutual

/-- The tree-depth invariant: for every heading node of level `L`, every
descendant heading has level > `L`. -/
def deepOk : IRBlock → Bool
  | .heading _ _ lv _ _ ch _ _ => allHeadingLevelsGt lv ch && deepOkList ch
  | _ => true

/-- `deepOk` over a forest. -/
def deepOkList : List IRBlock → Bool
  | [] => true
  | b :: bs => deepOk b && deepOkList bs

end

mutual

/-- Pre-order traversal of a tree: the node (its children emptied) followed
by its children, recursively. -/
def flattenBlock : IRBlock → List IRBlock
  | .heading id pg lv tx rns ch cf rs =>
    .heading id pg lv tx rns [] cf rs :: flattenForest ch
  | b => [b]

/-- Pre-order traversal of a forest. -/
def flattenForest : List IRBlock → List IRBlock
  | [] => []
  | b :: bs => flattenBlock b ++ flattenForest bs

end

/-- A flat input for the tree builder: every heading carries an empty
children list. -/
def flatInput (blocks : List IRBlock) : Bool :=
  blocks.all fun b =>
    match b with
    | .heading _ _ _ _ _ ch _ _ => ch.isEmpty
    | _ => true

/-- Case-insensitive equality of character lists, as the spec's
"begins (case-insensitive) with" reads. -/
def ciEq (kw cs : List Char) : Prop :=
  cs.map Char.toLower = kw.map Char.toLower

/-- The spec's wording of `is_structural_marker` (spec.md section 4.1):
the (stripped) text begins case-insensitively with "PART" or "CHAPTER",
then whitespace, then a roman numeral, an arabic numeral — or, when
`letters` is true, a letter — ending at a word boundary.  The claim under
test includes the letter alternative; the source regex
`_STRUCTURAL_MARKER_RE` has no letter alternative. -/
def SpecStructuralMarker (letters : Bool) (text : String) : Prop :=
  ∃ kw sp num rest,
    pyStrip text.data = kw ++ sp ++ num ++ rest ∧
    (ciEq "PART".data kw ∨ ciEq "CHAPTER".data kw) ∧
    sp ≠ [] ∧ sp.all isSpaceChar = true ∧
    ((num ≠ [] ∧ num.all isRomanChar = true) ∨
      (num ≠ [] ∧ num.all Char.isDigit = true) ∨
      (letters = true ∧ ∃ c, num = [c] ∧ c.isAlpha = true)) ∧
    boundaryOK rest = true

def mkH (tx : String) : GElem :=
  .blk (.heading "h" none 2 tx [] [] ((85 : ℚ)/100) none)

/-! Helper lemmas about character classes and list scanning. -/

theorem space_not_digit {c : Char} (h : isSpaceChar c = true) :
    c.isDigit = false := by
  simp only [isSpaceChar, Bool.or_eq_true, decide_eq_true_eq] at h
  rcases h with ((((rfl | rfl) | rfl) | rfl) | rfl) | rfl <;> decide

theorem space_not_alpha {c : Char} (h : isSpaceChar c = true) :
    c.isAlpha = false := by
  simp only [isSpaceChar, Bool.or_eq_true, decide_eq_true_eq] at h
  rcases h with ((((rfl | rfl) | rfl) | rfl) | rfl) | rfl <;> decide

theorem roman_not_space {c : Char} (h : isRomanChar c = true) :
    isSpaceChar c = false := by
  simp only [isRomanChar, Bool.or_eq_true, decide_eq_true_eq] at h
  rcases h with ((((((((((((rfl | rfl) | rfl) | rfl) | rfl) | rfl) | rfl) | rfl) | rfl) | rfl) | rfl) | rfl) | rfl) | rfl <;> decide

theorem roman_word {c : Char} (h : isRomanChar c = true) :
    isWordChar c = true := by
  simp only [isRomanChar, Bool.or_eq_true, decide_eq_true_eq] at h
  rcases h with ((((((((((((rfl | rfl) | rfl) | rfl) | rfl) | rfl) | rfl) | rfl) | rfl) | rfl) | rfl) | rfl) | rfl) | rfl <;> decide

theorem digit_not_space {c : Char} (h : c.isDigit = true) :
    isSpaceChar c = false := by
  cases hs : isSpaceChar c with
  | false => rfl
  | true => rw [space_not_digit hs] at h; exact absurd h (by simp)

theorem digit_word {c : Char} (h : c.isDigit = true) :
    isWordChar c = true := by
  simp [isWordChar, Char.isAlphanum, h]

theorem alpha_not_space {c : Char} (h : c.isAlpha = true) :
    isSpaceChar c = false := by
  cases hs : isSpaceChar c with
  | false => rfl
  | true => rw [space_not_alpha hs] at h; exact absurd h (by simp)

theorem alpha_word {c : Char} (h : c.isAlpha = true) :
    isWordChar c = true := by
  simp [isWordChar, Char.isAlphanum, h]

theorem dropWhile_append_all {p : Char → Bool} {xs : List Char}
    (ys : List Char) (h : xs.all p = true) :
    (xs ++ ys).dropWhile p = ys.dropWhile p := by
  induction xs with
  | nil => rfl
  | cons x xt ih =>
    simp only [List.all_cons, Bool.and_eq_true] at h
    simp [List.dropWhile, h.1, ih h.2]

theorem dropWhile_cons_of_neg {p : Char → Bool} {c : Char} {rs : List Char}
    (h : p c = false) : (c :: rs).dropWhile p = c :: rs := by
  simp [List.dropWhile, h]

theorem dropWhile_head_not {p : Char → Bool} :
    ∀ (l : List Char) {c : Char} {rs : List Char},
      List.dropWhile p l = c :: rs → p c = false := by
  intro l
  induction l with
  | nil => intro c rs h; simp [List.dropWhile] at h
  | cons x xt ih =>
    intro c rs h
    by_cases hx : p x = true
    · rw [List.dropWhile_cons_of_pos hx] at h; exact ih h
    · rw [List.dropWhile_cons_of_neg (by simpa using hx)] at h
      cases h; simpa using hx

theorem takeWhile_all (p : Char → Bool) :
    ∀ l : List Char, (l.takeWhile p).all p = true := by
  intro l
  induction l with
  | nil => rfl
  | cons x xt ih =>
    by_cases hx : p x = true
    · rw [List.takeWhile_cons_of_pos hx]; simp [hx, ih]
    · rw [List.takeWhile_cons_of_neg (by simpa using hx)]; rfl

theorem spacesThen_iff {cs r : List Char} :
    spacesThen cs = some r ↔
      ∃ sp, cs = sp ++ r ∧ sp ≠ [] ∧ sp.all isSpaceChar = true ∧
        (r = [] ∨ ∃ c rs, r = c :: rs ∧ isSpaceChar c = false) := by
  constructor
  · intro h
    match cs, h with
    | c :: cs2, h =>
      simp only [spacesThen] at h
      by_cases hc : isSpaceChar c = true
      · rw [if_pos hc] at h
        injection h with h
        refine ⟨c :: cs2.takeWhile isSpaceChar, ?_, by simp, ?_, ?_⟩
        · simp [← h, List.takeWhile_append_dropWhile]
        · simp [hc, takeWhile_all]
        · cases hr : cs2.dropWhile isSpaceChar with
          | nil => left; rw [← h, hr]
          | cons d ds =>
            right; exact ⟨d, ds, by rw [← h, hr], dropWhile_head_not cs2 hr⟩
      · rw [if_neg hc] at h; exact absurd h (by simp)
  · rintro ⟨sp, rfl, hne, hall, hr⟩
    match sp, hne with
    | s :: st, _ =>
      simp only [List.all_cons, Bool.and_eq_true] at hall
      simp only [spacesThen, List.cons_append, if_pos hall.1]
      rw [dropWhile_append_all r hall.2]
      rcases hr with rfl | ⟨c, rs, rfl, hc⟩
      · rfl
      · rw [dropWhile_cons_of_neg hc]

theorem runThenBoundary_iff {p : Char → Bool}
    (hword : ∀ c, p c = true → isWordChar c = true) {cs : List Char} :
    runThenBoundary p cs = true ↔
      ∃ num rest, cs = num ++ rest ∧ num ≠ [] ∧ num.all p = true ∧
        boundaryOK rest = true := by
  constructor
  · intro h
    match cs, h with
    | c :: cs2, h =>
      simp only [runThenBoundary, Bool.and_eq_true] at h
      refine ⟨c :: cs2.takeWhile p, cs2.dropWhile p, ?_, by simp, ?_, h.2⟩
      · simp [List.takeWhile_append_dropWhile]
      · simp [h.1, takeWhile_all]
  · rintro ⟨num, rest, rfl, hne, hall, hb⟩
    match num, hne with
    | n :: nt, _ =>
      simp only [List.all_cons, Bool.and_eq_true] at hall
      simp only [runThenBoundary, List.cons_append, Bool.and_eq_true]
      refine ⟨hall.1, ?_⟩
      rw [dropWhile_append_all rest hall.2]
      cases rest with
      | nil => exact hb
      | cons w ws =>
        simp only [boundaryOK, Bool.not_eq_true'] at hb
        have : p w = false := by
          cases hw : p w with
          | false => rfl
          | true => rw [hword w hw] at hb; exact absurd hb (by simp)
        rw [dropWhile_cons_of_neg this]
        simp [boundaryOK, hb]

theorem matchKeywordCI_iff :
    ∀ (kw cs r : List Char),
      matchKeywordCI kw cs = some r ↔ ∃ pre, cs = pre ++ r ∧ ciEq kw pre := by
  intro kw
  induction kw with
  | nil =>
    intro cs r
    simp only [matchKeywordCI, Option.some_inj]
    constructor
    · rintro rfl; exact ⟨[], rfl, by simp [ciEq]⟩
    · rintro ⟨pre, rfl, hci⟩
      simp only [ciEq, List.map_nil, List.map_eq_nil_iff] at hci
      simp [hci]
  | cons k ks ih =>
    intro cs r
    cases cs with
    | nil =>
      simp only [matchKeywordCI]
      constructor
      · intro h; exact absurd h (by simp)
      · rintro ⟨pre, hpre, hci⟩
        simp only [ciEq, List.map_cons] at hci
        cases pre with
        | nil => simp at hci
        | cons p pt => simp at hpre
    | cons c cs2 =>
      simp only [matchKeywordCI]
      by_cases hc : c.toLower = k.toLower
      · rw [if_pos hc, ih cs2 r]
        constructor
        · rintro ⟨pre, rfl, hci⟩
          exact ⟨c :: pre, rfl, by simp [ciEq, hc]; simpa [ciEq] using hci⟩
        · rintro ⟨pre, hpre, hci⟩
          cases pre with
          | nil => simp [ciEq] at hci
          | cons p pt =>
            simp only [List.cons_append, List.cons.injEq] at hpre
            refine ⟨pt, hpre.2, ?_⟩
            simp only [ciEq, List.map_cons, List.cons.injEq] at hci
            simpa [ciEq] using hci.2
      · rw [if_neg hc]
        constructor
        · intro h; exact absurd h (by simp)
        · rintro ⟨pre, hpre, hci⟩
          cases pre with
          | nil => simp [ciEq] at hci
          | cons p pt =>
            simp only [List.cons_append, List.cons.injEq] at hpre
            simp only [ciEq, List.map_cons, List.cons.injEq] at hci
            exact absurd (hpre.1 ▸ hci.1) hc

theorem structuralTail_iff {al : Bool} {cs : List Char} :
    structuralTail al cs = true ↔
      ∃ sp num rest,
        cs = sp ++ num ++ rest ∧ sp ≠ [] ∧ sp.all isSpaceChar = true ∧
        ((num ≠ [] ∧ num.all isRomanChar = true) ∨
          (num ≠ [] ∧ num.all Char.isDigit = true) ∨
          (al = true ∧ ∃ c, num = [c] ∧ c.isAlpha = true)) ∧
        boundaryOK rest = true := by
  constructor
  · intro h
    simp only [structuralTail] at h
    cases hs : spacesThen cs with
    | none => rw [hs] at h; exact absurd h (by simp)
    | some r =>
      rw [hs] at h
      obtain ⟨sp, rfl, hne, hall, _⟩ := spacesThen_iff.mp hs
      simp only [Bool.or_eq_true, Bool.and_eq_true] at h
      rcases h with (hroman | ⟨hal, hletter⟩) | hdigit
      · obtain ⟨num, rest, hr, hn, ha, hb⟩ :=
          (runThenBoundary_iff (p := isRomanChar)
            (fun c hc => roman_word hc)).mp hroman
        exact ⟨sp, num, rest, by rw [hr, List.append_assoc], hne, hall,
          Or.inl ⟨hn, ha⟩, hb⟩
      · cases r with
        | nil => simp at hletter
        | cons c rest =>
          simp only [Bool.and_eq_true] at hletter
          exact ⟨sp, [c], rest, by simp, hne, hall,
            Or.inr (Or.inr ⟨hal, c, rfl, hletter.1⟩), hletter.2⟩
      · obtain ⟨num, rest, hr, hn, ha, hb⟩ :=
          (runThenBoundary_iff (p := Char.isDigit)
            (fun c hc => digit_word hc)).mp hdigit
        exact ⟨sp, num, rest, by rw [hr, List.append_assoc], hne, hall,
          Or.inr (Or.inl ⟨hn, ha⟩), hb⟩
  · rintro ⟨sp, num, rest, rfl, hne, hall, hnum, hb⟩
    have hhead : num ++ rest = [] ∨
        ∃ c rs, num ++ rest = c :: rs ∧ isSpaceChar c = false := by
      rcases hnum with ⟨hn, ha⟩ | ⟨hn, ha⟩ | ⟨_, c, hc, ha⟩
      · match num, hn with
        | c :: rs, _ =>
          simp only [List.all_cons, Bool.and_eq_true] at ha
          exact Or.inr ⟨c, rs ++ rest, by simp, roman_not_space ha.1⟩
      · match num, hn with
        | c :: rs, _ =>
          simp only [List.all_cons, Bool.and_eq_true] at ha
          exact Or.inr ⟨c, rs ++ rest, by simp, digit_not_space ha.1⟩
      · subst hc
        exact Or.inr ⟨c, rest, by simp, alpha_not_space ha⟩
    have hsp : spacesThen (sp ++ num ++ rest) = some (num ++ rest) := by
      rw [List.append_assoc]
      exact spacesThen_iff.mpr ⟨sp, rfl, hne, hall, hhead⟩
    simp only [structuralTail, hsp, Bool.or_eq_true, Bool.and_eq_true]
    rcases hnum with ⟨hn, ha⟩ | ⟨hn, ha⟩ | ⟨hal, c, hc, hca⟩
    · exact Or.inl (Or.inl ((runThenBoundary_iff (p := isRomanChar)
        (fun c hc => roman_word hc)).mpr ⟨num, rest, rfl, hn, ha, hb⟩))
    · exact Or.inr ((runThenBoundary_iff (p := Char.isDigit)
        (fun c hc => digit_word hc)).mpr ⟨num, rest, rfl, hn, ha, hb⟩)
    · subst hc
      exact Or.inl (Or.inr ⟨hal, by simp [hca, hb]⟩)

theorem keywordOption_iff {kw s : List Char} {al : Bool} :
    (match matchKeywordCI kw s with
      | some r => structuralTail al r
      | none => false) = true ↔
      ∃ r, matchKeywordCI kw s = some r ∧ structuralTail al r = true := by
  cases h : matchKeywordCI kw s with
  | none => simp
  | some r => simp [h]

/-- C5 (amended): `is_structural_marker(text)` is true exactly when the
(stripped) text begins case-insensitively with "PART" or "CHAPTER" followed
by whitespace and then a roman or arabic numeral ending at a word boundary.
The claim's letter alternative is absent from `_STRUCTURAL_MARKER_RE`
(only `_LEVEL1_STRUCTURAL_RE` has it). -/
theorem is_structural_marker_characterization (text : String) :
    is_structural_marker text = true ↔ SpecStructuralMarker false text := by
  simp only [is_structural_marker, keywordThenTail, List.any_cons,
    List.any_nil, Bool.or_false, Bool.or_eq_true, keywordOption_iff,
    SpecStructuralMarker]
  constructor
  · rintro (⟨r, hm, ht⟩ | ⟨r, hm, ht⟩) <;>
      obtain ⟨pre, hs, hci⟩ := (matchKeywordCI_iff _ _ _).mp hm <;>
      obtain ⟨sp, num, rest, hr, hne, hall, hnum, hb⟩ :=
        structuralTail_iff.mp ht
    · exact ⟨pre, sp, num, rest, by rw [hs, hr]; simp [List.append_assoc],
        Or.inl hci, hne, hall, hnum, hb⟩
    · exact ⟨pre, sp, num, rest, by rw [hs, hr]; simp [List.append_assoc],
        Or.inr hci, hne, hall, hnum, hb⟩
  · rintro ⟨kw, sp, num, rest, hs, hkw, hne, hall, hnum, hb⟩
    have ht : structuralTail false (sp ++ num ++ rest) = true :=
      structuralTail_iff.mpr ⟨sp, num, rest, rfl, hne, hall, hnum, hb⟩
    have hs2 : pyStrip text.data = kw ++ (sp ++ num ++ rest) := by
      rw [hs]; simp [List.append_assoc]
    rcases hkw with hci | hci
    · exact Or.inl ⟨sp ++ num ++ rest,
        (matchKeywordCI_iff _ _ _).mpr ⟨kw, hs2, hci⟩, ht⟩
    · exact Or.inr ⟨sp ++ num ++ rest,
        (matchKeywordCI_iff _ _ _).mpr ⟨kw, hs2, hci⟩, ht⟩

/-- C5 counterexample: the claim's predicate (keyword followed by a letter)
holds for "PART A - GENERAL", yet `is_structural_marker` returns false —
the source regex accepts only roman or arabic numerals after the keyword. -/
theorem is_structural_marker_letter_counterexample :
    is_structural_marker "PART A - GENERAL" = false ∧
    SpecStructuralMarker true "PART A - GENERAL" := by
  constructor
  · decide
  · exact ⟨"PART".data, [' '], ['A'], " - GENERAL".data, by decide,
      Or.inl rfl, by decide, by decide,
      Or.inr (Or.inr ⟨rfl, 'A', rfl, by decide⟩), by decide⟩

/-- C3: the numbering classifier returns exactly the stated values on the
nine spec vectors. -/
theorem numbering_level_spec_vectors :
    level_from_numbering "1. Introduction" = some 1 ∧
    level_from_numbering "1.2 Scope" = some 2 ∧
    level_from_numbering "1.2.3 Details" = some 3 ∧
    level_from_numbering "1 Week Lookback" = none ∧
    level_from_numbering "100 items" = none ∧
    level_from_numbering "A.1 Section" = some 2 ∧
    level_from_numbering "B.2.1 Sub" = some 3 ∧
    level_from_numbering "2.2" = some 2 ∧
    level_from_numbering "12 Monkeys" = none := by
  refine ⟨?_, ?_, ?_, ?_, ?_, ?_, ?_, ?_, ?_⟩ <;> decide

/-- C6: the numbered-element promoters convert a paragraph / pending list
item whose text matches the multi-level numbering prefix exactly when the
numbering has ≥ 3 segments (any text length; confidence 0.90 for paragraphs,
0.85 for list items), or exactly 2 segments and text under 120 characters
(confidence 0.70 / 0.65), leaving the element unchanged otherwise; hence
`"1.2 " + "x"*200` is not promoted while `"1.3.1.2 " + "x"*200` is. -/
theorem promote_numbered_elements_spec :
    (∀ (id : String) (pg : Option Int) (tx : String) (rns : List TextRun)
        (k : Nat), multiLevelNumberMatch tx.data = some k →
      (3 ≤ k →
        promote_numbered_paragraphs [.blk (.paragraph id pg tx rns)] =
          [.blk (.heading mkId pg 2 tx rns [] ((90 : ℚ)/100)
            (some ("promoted:multi_level_" ++ toString k ++ "_parts")))]) ∧
      (k = 2 → tx.length < 120 →
        promote_numbered_paragraphs [.blk (.paragraph id pg tx rns)] =
          [.blk (.heading mkId pg 2 tx rns [] ((70 : ℚ)/100)
            (some ("promoted:two_level_" ++ toString tx.length ++ "_chars")))]) ∧
      (k = 2 → ¬ tx.length < 120 →
        promote_numbered_paragraphs [.blk (.paragraph id pg tx rns)] =
          [.blk (.paragraph id pg tx rns)])) ∧
    (∀ (p : PendingListItem) (k : Nat),
        multiLevelNumberMatch p.text.data = some k →
      (3 ≤ k →
        promote_numbered_list_items [.pend p] =
          [.blk (.heading mkId p.page 2 p.text p.runs [] ((85 : ℚ)/100)
            (some ("promoted_list_item:multi_level_" ++ toString k
              ++ "_parts")))]) ∧
      (k = 2 → p.text.length < 120 →
        promote_numbered_list_items [.pend p] =
          [.blk (.heading mkId p.page 2 p.text p.runs [] ((65 : ℚ)/100)
            (some ("promoted_list_item:two_level_" ++ toString p.text.length
              ++ "_chars")))]) ∧
      (k = 2 → ¬ p.text.length < 120 →
        promote_numbered_list_items [.pend p] = [.pend p])) ∧
    (∀ (id : String) (pg : Option Int) (tx : String) (rns : List TextRun),
        multiLevelNumberMatch tx.data = none →
      promote_numbered_paragraphs [.blk (.paragraph id pg tx rns)] =
        [.blk (.paragraph id pg tx rns)]) ∧
    (∀ p : PendingListItem, multiLevelNumberMatch p.text.data = none →
      promote_numbered_list_items [.pend p] = [.pend p]) ∧
    promote_numbered_paragraphs
        [.blk (.paragraph "p1" none
          ("1.2 " ++ String.mk (List.replicate 200 'x')) [])] =
      [.blk (.paragraph "p1" none
        ("1.2 " ++ String.mk (List.replicate 200 'x')) [])] ∧
    promote_numbered_paragraphs
        [.blk (.paragraph "p2" none
          ("1.3.1.2 " ++ String.mk (List.replicate 200 'x')) [])] =
      [.blk (.heading mkId none 2
        ("1.3.1.2 " ++ String.mk (List.replicate 200 'x')) [] []
        ((90 : ℚ)/100) (some "promoted:multi_level_4_parts"))] := by
  refine ⟨?_, ?_, ?_, ?_, ?_, ?_⟩
  · intro id pg tx rns k h
    refine ⟨?_, ?_, ?_⟩
    · intro h3
      simp [promote_numbered_paragraphs, h, if_pos h3]
    · rintro rfl hlen
      simp [promote_numbered_paragraphs, h, hlen]
    · rintro rfl hlen
      simp [promote_numbered_paragraphs, h, hlen]
  · intro p k h
    refine ⟨?_, ?_, ?_⟩
    · intro h3
      simp [promote_numbered_list_items, h, if_pos h3]
    · rintro rfl hlen
      simp [promote_numbered_list_items, h, hlen]
    · rintro rfl hlen
      simp [promote_numbered_list_items, h, hlen]
  · intro id pg tx rns h
    simp [promote_numbered_paragraphs, h]
  · intro p h
    simp [promote_numbered_list_items, h]
  · rfl
  · rfl

/-- C6 witness: the promoter clauses instantiated at concrete inputs — a
three-segment paragraph is promoted with confidence 0.90 and a two-segment
pending list item of short text is promoted with confidence 0.65. -/
theorem promote_numbered_elements_spec_witness :
    promote_numbered_paragraphs
        [.blk (.paragraph "p" (some 1) "1.2.3 Details" [])] =
      [.blk (.heading mkId (some 1) 2 "1.2.3 Details" [] [] ((90 : ℚ)/100)
        (some ("promoted:multi_level_" ++ toString 3 ++ "_parts")))] ∧
    promote_numbered_list_items
        [.pend ⟨"8.1 Open", [], some 2, true, "", 0⟩] =
      [.blk (.heading mkId (some 2) 2 "8.1 Open" [] [] ((65 : ℚ)/100)
        (some ("promoted_list_item:two_level_" ++ toString ("8.1 Open".length)
          ++ "_chars")))] :=
  ⟨(promote_numbered_elements_spec.1 "p" (some 1) "1.2.3 Details" [] 3
      (by decide)).1 (by decide),
    ((promote_numbered_elements_spec.2.1 ⟨"8.1 Open", [], some 2, true, "", 0⟩
      2 (by decide)).2.1 rfl (by decide))⟩

/-- C1: the heading level resolver assigns each heading's level by the first
applicable rule in priority order — structural marker (level 1, confidence
raised to at least 0.95), numbering (level `min (n + offset) 9`, confidence
unchanged), first heading as title (level 1, confidence capped at 0.80),
inherit `last_level` (confidence capped at 0.50) — and on the two spec
sequences with `has_parts = true` produces levels [1,2,3,4] and
[1,2,3,3,3]. -/
theorem resolve_heading_levels_priority_rules :
    (∀ (offset : Int) (st : ResolveState) (id : String) (pg : Option Int)
        (lv0 : Int) (tx : String) (rns : List TextRun) (ch : List IRBlock)
        (cf : ℚ) (rs : Option String),
      (is_level1_structural tx = true →
        resolveStep offset st (.blk (.heading id pg lv0 tx rns ch cf rs)) =
          (⟨true, 1⟩, .blk (.heading id pg 1 tx rns ch
            (max cf ((95 : ℚ)/100)) (appendReason rs "structural_marker")))) ∧
      (∀ n : Nat, is_level1_structural tx = false →
        level_from_numbering tx = some n →
        resolveStep offset st (.blk (.heading id pg lv0 tx rns ch cf rs)) =
          (⟨true, min ((n : Int) + offset) 9⟩,
            .blk (.heading id pg (min ((n : Int) + offset) 9) tx rns ch cf
              (appendReason rs ("numbering:" ++ toString n ++ "+offset_"
                ++ toString offset))))) ∧
      (is_level1_structural tx = false → level_from_numbering tx = none →
        st.first_heading_seen = false →
        resolveStep offset st (.blk (.heading id pg lv0 tx rns ch cf rs)) =
          (⟨true, 1⟩, .blk (.heading id pg 1 tx rns ch
            (min cf ((80 : ℚ)/100))
            (appendReason rs "first_heading_as_title")))) ∧
      (is_level1_structural tx = false → level_from_numbering tx = none →
        st.first_heading_seen = true →
        resolveStep offset st (.blk (.heading id pg lv0 tx rns ch cf rs)) =
          (⟨true, st.last_level⟩, .blk (.heading id pg st.last_level tx rns ch
            (min cf ((50 : ℚ)/100))
            (appendReason rs ("inherited_" ++ toString st.last_level)))))) ∧
    headingLevels (resolve_heading_levels
      [mkH "PART I - GENERAL", mkH "1. Introduction", mkH "1.1 Purpose",
       mkH "1.1.1 Sub"] true) = [1, 2, 3, 4] ∧
    headingLevels (resolve_heading_levels
      [mkH "PART I - GENERAL", mkH "2. TECHNICAL SUPPORT",
       mkH "2.3 Project Document Control", mkH "RFI's", mkH "SUBMITTALS"]
      true) = [1, 2, 3, 3, 3] := by
  refine ⟨?_, by decide, by decide⟩
  intro offset st id pg lv0 tx rns ch cf rs
  refine ⟨?_, ?_, ?_, ?_⟩
  · intro h
    simp [resolveStep, h]
  · intro n h hn
    simp [resolveStep, h, hn]
  · intro h hn hseen
    simp [resolveStep, h, hn, hseen]
  · intro h hn hseen
    simp [resolveStep, h, hn, hseen]

/-- C1 witness: the structural-marker rule and the inherit rule applied at
concrete inputs. -/
theorem resolve_heading_levels_priority_rules_witness :
    resolveStep 1 ⟨false, 2⟩
        (.blk (.heading "h" none 2 "PART I - GENERAL" [] [] ((85 : ℚ)/100)
          none)) =
      (⟨true, 1⟩, .blk (.heading "h" none 1 "PART I - GENERAL" [] []
        (max ((85 : ℚ)/100) ((95 : ℚ)/100))
        (appendReason none "structural_marker"))) ∧
    resolveStep 1 ⟨true, 3⟩
        (.blk (.heading "h" none 2 "SUBMITTALS" [] [] ((85 : ℚ)/100) none)) =
      (⟨true, 3⟩, .blk (.heading "h" none 3 "SUBMITTALS" [] []
        (min ((85 : ℚ)/100) ((50 : ℚ)/100))
        (appendReason none "inherited_3"))) := by
  constructor
  · exact (resolve_heading_levels_priority_rules.1 1 ⟨false, 2⟩ "h" none 2
      "PART I - GENERAL" [] [] ((85 : ℚ)/100) none).1 (by decide)
  · have h := (resolve_heading_levels_priority_rules.1 1 ⟨true, 3⟩ "h" none 2
      "SUBMITTALS" [] [] ((85 : ℚ)/100) none).2.2.2 (by decide) (by decide)
      rfl
    simpa using h

theorem resolveStep_sync (offset : Int) (st : ResolveState) (el : GElem) :
    (resolveStep offset st (resolveStep offset st el).2).1 =
      (resolveStep offset st el).1 ∧
    elemLevel? (resolveStep offset st (resolveStep offset st el).2).2 =
      elemLevel? (resolveStep offset st el).2 := by
  match el with
  | .pend p => exact ⟨rfl, rfl⟩
  | .blk (.paragraph ..) => exact ⟨rfl, rfl⟩
  | .blk (.listBlock ..) => exact ⟨rfl, rfl⟩
  | .blk (.table ..) => exact ⟨rfl, rfl⟩
  | .blk (.figure ..) => exact ⟨rfl, rfl⟩
  | .blk (.pageBreak ..) => exact ⟨rfl, rfl⟩
  | .blk (.heading id pg lv0 tx rns ch cf rs) =>
    by_cases hs : is_level1_structural tx = true
    · simp [resolveStep, hs, elemLevel?]
    · cases hn : level_from_numbering tx with
      | some n =>
        simp [resolveStep, hs, hn, elemLevel?]
      | none =>
        by_cases hseen : st.first_heading_seen = true
        · simp [resolveStep, hs, hn, hseen, elemLevel?]
        · simp only [Bool.not_eq_true] at hseen
          simp [resolveStep, hs, hn, hseen, elemLevel?]

theorem resolveAux_idem (offset : Int) :
    ∀ (els : List GElem) (st : ResolveState),
      headingLevels (resolveAux offset st (resolveAux offset st els)) =
        headingLevels (resolveAux offset st els) := by
  intro els
  induction els with
  | nil => intro st; rfl
  | cons e els ih =>
    intro st
    obtain ⟨hst, hlv⟩ := resolveStep_sync offset st e
    simp only [resolveAux, headingLevels, List.filterMap_cons]
    rw [hst, hlv]
    have := ih (resolveStep offset st e).1
    simp only [headingLevels] at this
    rw [this]

/-- C7: the heading level resolver is idempotent on levels — running it a
second time on its own output (same `has_parts` flag) assigns every heading
the identical level, because each rule's branch depends only on the
heading's text and the running state, which evolve identically in both
passes. -/
theorem resolve_heading_levels_idempotent (els : List GElem) (hp : Bool) :
    headingLevels
        (resolve_heading_levels (resolve_heading_levels els hp) hp) =
      headingLevels (resolve_heading_levels els hp) := by
  simp only [resolve_heading_levels]
  exact resolveAux_idem _ els ⟨false, 2⟩

theorem groupAux_items :
    ∀ (ps pending : List PendingListItem) (els : List GElem),
      groupAux pending (ps.map GElem.pend ++ els) =
        groupAux (pending ++ ps) els := by
  intro ps
  induction ps with
  | nil => intro pending els; simp
  | cons p pt ih =>
    intro pending els
    simp only [List.map_cons, List.cons_append, groupAux, List.append_eq]
    rw [ih (pending ++ [p]) els, List.append_assoc]
    rfl

/-- C8: one maximal run of consecutive pending list items produces exactly
one list block: its style comes from the first buffered item's `enumerated`
flag (also for mixed runs), its marker format is detected only for ordered
runs, and its items are the run nested by the depth stack of
`_nest_list_items`; the following elements are grouped independently. -/
theorem group_list_items_run (p : PendingListItem)
    (ps : List PendingListItem) (rest : List GElem)
    (hrest : rest = [] ∨ ∃ b rest2, rest = .blk b :: rest2) :
    group_list_items (GElem.pend p :: ps.map GElem.pend ++ rest) =
      IRBlock.listBlock mkId p.page
          (if p.enumerated then ListStyle.ordered else ListStyle.unordered)
          (if p.enumerated then detect_marker_format (p :: ps) else none)
          (nest_list_items (p :: ps)) :: group_list_items rest := by
  have h0 : group_list_items (GElem.pend p :: ps.map GElem.pend ++ rest) =
      groupAux (p :: ps) rest := by
    simp only [group_list_items, groupAux]
    have := groupAux_items ps [p] rest
    simpa using this
  rw [h0]
  rcases hrest with rfl | ⟨b, rest2, rfl⟩
  · simp [groupAux, flushPending, group_list_items]
  · simp [groupAux, flushPending, group_list_items]

/-- C8 witness: pending items with depths `[0, 1, 0]` and texts
Parent/Child/Sibling group into one unordered list block with root items
Parent (owning Child) and Sibling, in that order. -/
theorem group_list_items_run_witness :
    group_list_items
        [.pend ⟨"Parent", [], none, false, "", 0⟩,
         .pend ⟨"Child", [], none, false, "", 1⟩,
         .pend ⟨"Sibling", [], none, false, "", 0⟩] =
      [.listBlock mkId none .unordered none
        [.mk "Parent" [] [.mk "Child" [] []], .mk "Sibling" [] []]] :=
  (group_list_items_run ⟨"Parent", [], none, false, "", 0⟩
    [⟨"Child", [], none, false, "", 1⟩, ⟨"Sibling", [], none, false, "", 0⟩]
    [] (Or.inl rfl)).trans rfl

/-! Refinement of the tree builder to the spec-side description. -/

theorem specBuild_nil (bound : Int) : (specBuild bound []).val = ([], []) := by
  rw [specBuild]

theorem specBuild_cons_le {b : IRBlock} {lv : Int} (bs : List IRBlock)
    {bound : Int} (hlv : headingLevel? b = some lv) (h : lv ≤ bound) :
    (specBuild bound (b :: bs)).val = ([], b :: bs) := by
  rw [specBuild]
  simp only [hlv, if_pos h]

theorem specBuild_cons_gt {b : IRBlock} {lv : Int} (bs : List IRBlock)
    {bound : Int} (hlv : headingLevel? b = some lv) (h : ¬ lv ≤ bound) :
    (specBuild bound (b :: bs)).val =
      (withChildren b (specBuild lv bs).val.1 ::
          (specBuild bound (specBuild lv bs).val.2).val.1,
        (specBuild bound (specBuild lv bs).val.2).val.2) := by
  rw [specBuild]
  simp only [hlv, if_neg h]

theorem specBuild_cons_none {b : IRBlock} (bs : List IRBlock) {bound : Int}
    (hlv : headingLevel? b = none) :
    (specBuild bound (b :: bs)).val =
      (b :: (specBuild bound bs).val.1, (specBuild bound bs).val.2) := by
  rw [specBuild]
  simp only [hlv]

theorem specForest_nil : specForest [] = [] := by rw [specForest]

theorem specForest_cons_heading {b : IRBlock} {lv : Int} (bs : List IRBlock)
    (hlv : headingLevel? b = some lv) :
    specForest (b :: bs) =
      withChildren b (specBuild lv bs).val.1 ::
        specForest (specBuild lv bs).val.2 := by
  rw [specForest]
  simp only [hlv]

theorem specForest_cons_none {b : IRBlock} (bs : List IRBlock)
    (hlv : headingLevel? b = none) :
    specForest (b :: bs) = b :: specForest bs := by
  rw [specForest]
  simp only [hlv]

/-- The remainder returned by `specBuild` is empty or starts with a heading
of level at most the bound. -/
theorem specBuild_rest_head :
    ∀ (n : Nat) (blocks : List IRBlock) (bound : Int), blocks.length ≤ n →
      (specBuild bound blocks).val.2 = [] ∨
        ∃ b2 bs2 lv2, (specBuild bound blocks).val.2 = b2 :: bs2 ∧
          headingLevel? b2 = some lv2 ∧ lv2 ≤ bound := by
  intro n
  induction n with
  | zero =>
    intro blocks bound hn
    match blocks, hn with
    | [], _ => rw [specBuild_nil]; exact Or.inl rfl
  | succ n ih =>
    intro blocks bound hn
    match blocks with
    | [] => rw [specBuild_nil]; exact Or.inl rfl
    | b :: bs =>
      cases hlv : headingLevel? b with
      | some lv =>
        by_cases hle : lv ≤ bound
        · rw [specBuild_cons_le bs hlv hle]
          exact Or.inr ⟨b, bs, lv, rfl, hlv, hle⟩
        · rw [specBuild_cons_gt bs hlv hle]
          have hlen : (specBuild lv bs).val.2.length ≤ n := by
            have := (specBuild lv bs).property.length_le
            simp only [List.length_cons] at hn
            omega
          exact ih (specBuild lv bs).val.2 bound hlen
      | none =>
        rw [specBuild_cons_none bs hlv]
        have hlen : bs.length ≤ n := by
          simp only [List.length_cons] at hn; omega
        exact ih bs bound hlen

/-- The machine run of `_build_heading_tree` from an arbitrary state. -/
def runB (st : BuildState) (blocks : List IRBlock) : List IRBlock :=
  finalizeBuild (blocks.foldl buildStep st)

/-- Children accumulated onto an open frame (the machine keeps them in
reverse). -/
def addKids (f : BuildFrame) (kids : List IRBlock) : BuildFrame :=
  { f with extra := kids.reverse ++ f.extra }

theorem addKids_nil (f : BuildFrame) : addKids f [] = f := by
  cases f; simp [addKids]

theorem addKids_one (f : BuildFrame) (x : IRBlock) :
    addKids f [x] = { f with extra := x :: f.extra } := by
  cases f; simp [addKids]

theorem addKids_cons (f : BuildFrame) (b : IRBlock) (kids : List IRBlock) :
    addKids f (b :: kids) = addKids (addKids f [b]) kids := by
  cases f; simp [addKids]

theorem addKids_append (f : BuildFrame) (xs ys : List IRBlock) :
    addKids f (xs ++ ys) = addKids (addKids f xs) ys := by
  cases f; simp [addKids]

theorem addKids_level (f : BuildFrame) (kids : List IRBlock) :
    (addKids f kids).level = f.level := by
  cases f; simp [addKids]

theorem popWhileGE_nil (lv : Int) (rr : List IRBlock) :
    popWhileGE lv ⟨rr, []⟩ = ⟨rr, []⟩ := by
  simp [popWhileGE, List.span_eq_take_drop]

theorem popWhileGE_lt (lv : Int) (rr : List IRBlock) (f : BuildFrame)
    (fs : List BuildFrame) (h : ¬ lv ≤ f.level) :
    popWhileGE lv ⟨rr, f :: fs⟩ = ⟨rr, f :: fs⟩ := by
  have hf : ¬ ((fun g : BuildFrame => decide (lv ≤ g.level)) f = true) := by
    simpa using h
  simp only [popWhileGE, List.span_eq_take_drop,
    List.takeWhile_cons_of_neg (p := fun g : BuildFrame => decide (lv ≤ g.level)) hf]

theorem popWhileGE_pop (lv : Int) (rr : List IRBlock) (g : BuildFrame)
    (fs : List BuildFrame) (h : lv ≤ g.level) :
    popWhileGE lv ⟨rr, g :: fs⟩ =
      popWhileGE lv (attachB (closeBuildFrame g) ⟨rr, fs⟩) := by
  have hg : ((fun f : BuildFrame => decide (lv ≤ f.level)) g = true) := by
    simpa using h
  cases fs with
  | nil =>
    simp only [popWhileGE, attachB, List.span_eq_take_drop,
      List.takeWhile_cons_of_pos (p := fun f : BuildFrame => decide (lv ≤ f.level)) hg,
      List.dropWhile_cons_of_pos (p := fun f : BuildFrame => decide (lv ≤ f.level)) hg,
      List.takeWhile_nil, List.dropWhile_nil, List.foldl_nil]
  | cons f gs =>
    by_cases hf : lv ≤ f.level
    · have hf1 : ((fun g : BuildFrame => decide (lv ≤ g.level)) f = true) := by
        simpa using hf
      have hf2 : ((fun g : BuildFrame => decide (lv ≤ g.level))
          { f with extra := closeBuildFrame g :: f.extra } = true) := by
        simpa using hf
      simp only [popWhileGE, attachB, List.span_eq_take_drop,
        List.takeWhile_cons_of_pos (p := fun f : BuildFrame => decide (lv ≤ f.level)) hg,
        List.takeWhile_cons_of_pos (p := fun g : BuildFrame => decide (lv ≤ g.level)) hf1,
        List.takeWhile_cons_of_pos (p := fun g : BuildFrame => decide (lv ≤ g.level)) hf2,
        List.dropWhile_cons_of_pos (p := fun f : BuildFrame => decide (lv ≤ f.level)) hg,
        List.dropWhile_cons_of_pos (p := fun g : BuildFrame => decide (lv ≤ g.level)) hf1,
        List.dropWhile_cons_of_pos (p := fun g : BuildFrame => decide (lv ≤ g.level)) hf2,
        List.foldl_cons]
    · have hf1 : ¬ ((fun g : BuildFrame => decide (lv ≤ g.level)) f = true) := by
        simpa using hf
      have hf2 : ¬ ((fun g : BuildFrame => decide (lv ≤ g.level))
          { f with extra := closeBuildFrame g :: f.extra } = true) := by
        simpa using hf
      simp only [popWhileGE, attachB, List.span_eq_take_drop,
        List.takeWhile_cons_of_pos (p := fun f : BuildFrame => decide (lv ≤ f.level)) hg,
        List.takeWhile_cons_of_neg (p := fun g : BuildFrame => decide (lv ≤ g.level)) hf1,
        List.takeWhile_cons_of_neg (p := fun g : BuildFrame => decide (lv ≤ g.level)) hf2,
        List.dropWhile_cons_of_pos (p := fun f : BuildFrame => decide (lv ≤ f.level)) hg,
        List.dropWhile_cons_of_neg (p := fun g : BuildFrame => decide (lv ≤ g.level)) hf1,
        List.dropWhile_cons_of_neg (p := fun g : BuildFrame => decide (lv ≤ g.level)) hf2,
        List.foldl_cons, List.foldl_nil]

theorem finalizeBuild_pop (rr : List IRBlock) (g : BuildFrame)
    (fs : List BuildFrame) :
    finalizeBuild ⟨rr, g :: fs⟩ =
      finalizeBuild (attachB (closeBuildFrame g) ⟨rr, fs⟩) := by
  cases fs with
  | nil => simp [finalizeBuild, attachB]
  | cons f gs => simp [finalizeBuild, attachB]

/-- Closing a frame whose accumulated children are `kids` (reversed inside
the frame) is `withChildren` of the original block. -/
theorem closeBuildFrame_addKids (lv : Int) (b : IRBlock)
    (kids : List IRBlock) :
    closeBuildFrame (addKids ⟨lv, b, []⟩ kids) = withChildren b kids := by
  cases b <;> simp [closeBuildFrame, addKids, withChildren]

/-- Popping the top frame commutes with the rest of the run, provided the
next input (if any) is a heading of level at most the frame's level. -/
theorem runB_popFrame (rr : List IRBlock) (g : BuildFrame)
    (fs : List BuildFrame) (R : List IRBlock)
    (hR : R = [] ∨ ∃ b2 bs2 lv2, R = b2 :: bs2 ∧
      headingLevel? b2 = some lv2 ∧ lv2 ≤ g.level) :
    runB ⟨rr, g :: fs⟩ R = runB (attachB (closeBuildFrame g) ⟨rr, fs⟩) R := by
  rcases hR with rfl | ⟨b2, bs2, lv2, rfl, hlv2, hle2⟩
  · simp only [runB, List.foldl_nil]
    exact finalizeBuild_pop rr g fs
  · simp only [runB, List.foldl_cons]
    have hstep : buildStep ⟨rr, g :: fs⟩ b2 =
        buildStep (attachB (closeBuildFrame g) ⟨rr, fs⟩) b2 := by
      simp only [buildStep, hlv2]
      rw [popWhileGE_pop lv2 rr g fs hle2]
    rw [hstep]

/-- The machine with a non-empty stack follows `specBuild` at the top
frame's level. -/
theorem runB_stack :
    ∀ (n : Nat) (blocks : List IRBlock), blocks.length ≤ n →
      ∀ (rr : List IRBlock) (f : BuildFrame) (fs : List BuildFrame),
        runB ⟨rr, f :: fs⟩ blocks =
          runB ⟨rr, addKids f (specBuild f.level blocks).val.1 :: fs⟩
            (specBuild f.level blocks).val.2 := by
  intro n
  induction n with
  | zero =>
    intro blocks hn rr f fs
    match blocks, hn with
    | [], _ => rw [specBuild_nil]; simp [addKids_nil]
  | succ n ih =>
    intro blocks hn rr f fs
    match blocks with
    | [] => rw [specBuild_nil]; simp [addKids_nil]
    | b :: bs =>
      have hbs : bs.length ≤ n := by
        simp only [List.length_cons] at hn; omega
      cases hlv : headingLevel? b with
      | none =>
        rw [specBuild_cons_none bs hlv]
        have hstep : buildStep ⟨rr, f :: fs⟩ b = ⟨rr, addKids f [b] :: fs⟩ := by
          simp [buildStep, hlv, attachB, addKids]
        simp only [runB, List.foldl_cons, hstep]
        have := ih bs hbs rr (addKids f [b]) fs
        simp only [runB] at this
        rw [addKids_level] at this
        rw [this, ← addKids_cons]
      | some lv =>
        by_cases hle : lv ≤ f.level
        · rw [specBuild_cons_le bs hlv hle]
          simp [addKids_nil]
        · rw [specBuild_cons_gt bs hlv hle]
          have hstep : buildStep ⟨rr, f :: fs⟩ b =
              ⟨rr, (⟨lv, b, []⟩ : BuildFrame) :: f :: fs⟩ := by
            simp [buildStep, hlv, popWhileGE_lt lv rr f fs hle]
          simp only [runB, List.foldl_cons, hstep]
          have h1 := ih bs hbs rr ⟨lv, b, []⟩ (f :: fs)
          simp only [runB] at h1
          rw [h1]
          have hrest := specBuild_rest_head n bs lv hbs
          have hlen2 : (specBuild lv bs).val.2.length ≤ n := by
            have := (specBuild lv bs).property.length_le
            omega
          have h2 := runB_popFrame rr
            (addKids ⟨lv, b, []⟩ (specBuild ((⟨lv, b, []⟩ : BuildFrame).level) bs).val.1)
            (f :: fs) (specBuild ((⟨lv, b, []⟩ : BuildFrame).level) bs).val.2
            (by
              rcases hrest with h | ⟨b2, bs2, lv2, heq, hl2, hle2⟩
              · exact Or.inl h
              · exact Or.inr ⟨b2, bs2, lv2, heq, hl2, by
                  rw [addKids_level]; exact hle2⟩)
          simp only [runB] at h2
          rw [h2]
          have hclose : closeBuildFrame
              (addKids ⟨lv, b, []⟩ (specBuild lv bs).val.1) =
              withChildren b (specBuild lv bs).val.1 :=
            closeBuildFrame_addKids lv b _
          rw [hclose]
          simp only [attachB]
          rw [← addKids_one f (withChildren b (specBuild lv bs).val.1)]
          have h3 := ih (specBuild lv bs).val.2 hlen2 rr
            (addKids f [withChildren b (specBuild lv bs).val.1]) fs
          simp only [runB] at h3
          rw [addKids_level] at h3
          rw [h3, ← addKids_cons]

/-- The machine with an empty stack produces `specForest`. -/
theorem runB_root :
    ∀ (n : Nat) (blocks : List IRBlock), blocks.length ≤ n →
      ∀ rr : List IRBlock,
        runB ⟨rr, []⟩ blocks = rr.reverse ++ specForest blocks := by
  intro n
  induction n with
  | zero =>
    intro blocks hn rr
    match blocks, hn with
    | [], _ => rw [specForest_nil]; simp [runB, finalizeBuild]
  | succ n ih =>
    intro blocks hn rr
    match blocks with
    | [] => rw [specForest_nil]; simp [runB, finalizeBuild]
    | b :: bs =>
      have hbs : bs.length ≤ n := by
        simp only [List.length_cons] at hn; omega
      cases hlv : headingLevel? b with
      | none =>
        rw [specForest_cons_none bs hlv]
        have hstep : buildStep ⟨rr, []⟩ b = ⟨b :: rr, []⟩ := by
          simp [buildStep, hlv, attachB]
        simp only [runB, List.foldl_cons, hstep]
        have := ih bs hbs (b :: rr)
        simp only [runB] at this
        rw [this]
        simp
      | some lv =>
        rw [specForest_cons_heading bs hlv]
        have hstep : buildStep ⟨rr, []⟩ b =
            ⟨rr, [(⟨lv, b, []⟩ : BuildFrame)]⟩ := by
          simp [buildStep, hlv, popWhileGE_nil]
        simp only [runB, List.foldl_cons, hstep]
        have h1 := runB_stack n bs hbs rr ⟨lv, b, []⟩ []
        simp only [runB] at h1
        rw [h1]
        have hrest := specBuild_rest_head n bs lv hbs
        have hlen2 : (specBuild lv bs).val.2.length ≤ n := by
          have := (specBuild lv bs).property.length_le
          omega
        have h2 := runB_popFrame rr
          (addKids ⟨lv, b, []⟩ (specBuild ((⟨lv, b, []⟩ : BuildFrame).level) bs).val.1)
          [] (specBuild ((⟨lv, b, []⟩ : BuildFrame).level) bs).val.2
          (by
            rcases hrest with h | ⟨b2, bs2, lv2, heq, hl2, hle2⟩
            · exact Or.inl h
            · exact Or.inr ⟨b2, bs2, lv2, heq, hl2, by
                rw [addKids_level]; exact hle2⟩)
        simp only [runB] at h2
        rw [h2]
        have hclose : closeBuildFrame
            (addKids ⟨lv, b, []⟩ (specBuild lv bs).val.1) =
            withChildren b (specBuild lv bs).val.1 :=
          closeBuildFrame_addKids lv b _
        rw [hclose]
        simp only [attachB]
        have h3 := ih (specBuild lv bs).val.2 hlen2
          (withChildren b (specBuild lv bs).val.1 :: rr)
        simp only [runB] at h3
        rw [h3]
        simp

/-- The stack machine of `_build_heading_tree` equals the spec-side
recursive description. -/
theorem build_heading_tree_eq_specForest (blocks : List IRBlock) :
    build_heading_tree blocks = specForest blocks := by
  have h := runB_root blocks.length blocks (le_refl _) []
  simpa [runB, build_heading_tree] using h

theorem headingLevel?_eq_some {b : IRBlock} {lv : Int}
    (h : headingLevel? b = some lv) :
    ∃ id pg tx rns ch cf rs, b = .heading id pg lv tx rns ch cf rs := by
  cases b with
  | heading id pg lv2 tx rns ch cf rs =>
    simp only [headingLevel?, Option.some_inj] at h
    exact ⟨id, pg, tx, rns, ch, cf, rs, by rw [h]⟩
  | _ => simp [headingLevel?] at h

theorem blockLevelsGt_non_heading {b : IRBlock} {bound : Int}
    (h : headingLevel? b = none) : blockLevelsGt bound b = true := by
  cases b <;> first
    | rfl
    | simp [headingLevel?] at h

theorem deepOk_non_heading {b : IRBlock} (h : headingLevel? b = none) :
    deepOk b = true := by
  cases b <;> first
    | rfl
    | simp [headingLevel?] at h

mutual

theorem allGt_mono : ∀ (bs : List IRBlock) {b1 b2 : Int}, b1 ≤ b2 →
    allHeadingLevelsGt b2 bs = true → allHeadingLevelsGt b1 bs = true
  | [], _, _, _, _ => rfl
  | b :: bs, b1, b2, hle, h => by
    simp only [allHeadingLevelsGt, Bool.and_eq_true] at h ⊢
    exact ⟨blockGt_mono b hle h.1, allGt_mono bs hle h.2⟩

theorem blockGt_mono : ∀ (b : IRBlock) {b1 b2 : Int}, b1 ≤ b2 →
    blockLevelsGt b2 b = true → blockLevelsGt b1 b = true
  | .paragraph .., _, _, _, _ => rfl
  | .listBlock .., _, _, _, _ => rfl
  | .table .., _, _, _, _ => rfl
  | .figure .., _, _, _, _ => rfl
  | .pageBreak .., _, _, _, _ => rfl
  | .heading id pg lv tx rns ch cf rs, b1, b2, hle, h => by
    simp only [blockLevelsGt, Bool.and_eq_true, decide_eq_true_eq] at h ⊢
    exact ⟨by omega, allGt_mono ch hle h.2⟩

end

theorem flatInput_suffix {R blocks : List IRBlock} (h : R <:+ blocks)
    (hf : flatInput blocks = true) : flatInput R = true := by
  simp only [flatInput, List.all_eq_true] at hf ⊢
  intro b hb
  exact hf b (h.subset hb)

theorem flatInput_cons {b : IRBlock} {bs : List IRBlock}
    (h : flatInput (b :: bs) = true) : flatInput bs = true := by
  simp only [flatInput, List.all_cons, Bool.and_eq_true] at h
  exact h.2

theorem flatInput_heading {id : String} {pg : Option Int} {lv : Int}
    {tx : String} {rns : List TextRun} {ch : List IRBlock} {cf : ℚ}
    {rs : Option String} {bs : List IRBlock}
    (h : flatInput (.heading id pg lv tx rns ch cf rs :: bs) = true) :
    ch = [] := by
  simp only [flatInput, List.all_cons, Bool.and_eq_true] at h
  simpa using h.1

/-- The children forest built by `specBuild` contains only headings of level
strictly above the bound, and satisfies the depth invariant throughout. -/
theorem specBuild_deepOk :
    ∀ (n : Nat) (blocks : List IRBlock) (bound : Int), blocks.length ≤ n →
      flatInput blocks = true →
      allHeadingLevelsGt bound (specBuild bound blocks).val.1 = true ∧
      deepOkList (specBuild bound blocks).val.1 = true := by
  intro n
  induction n with
  | zero =>
    intro blocks bound hn _
    match blocks, hn with
    | [], _ => rw [specBuild_nil]; exact ⟨rfl, rfl⟩
  | succ n ih =>
    intro blocks bound hn hflat
    match blocks with
    | [] => rw [specBuild_nil]; exact ⟨rfl, rfl⟩
    | b :: bs =>
      have hbs : bs.length ≤ n := by
        simp only [List.length_cons] at hn; omega
      have hflatbs : flatInput bs = true := flatInput_cons hflat
      cases hlv : headingLevel? b with
      | none =>
        rw [specBuild_cons_none bs hlv]
        obtain ⟨h1, h2⟩ := ih bs bound hbs hflatbs
        refine ⟨?_, ?_⟩
        · simp only [allHeadingLevelsGt, Bool.and_eq_true]
          exact ⟨blockLevelsGt_non_heading hlv, h1⟩
        · simp only [deepOkList, Bool.and_eq_true]
          exact ⟨deepOk_non_heading hlv, h2⟩
      | some lv =>
        by_cases hle : lv ≤ bound
        · rw [specBuild_cons_le bs hlv hle]
          exact ⟨rfl, rfl⟩
        · rw [specBuild_cons_gt bs hlv hle]
          obtain ⟨id, pg, tx, rns, ch, cf, rs, rfl⟩ := headingLevel?_eq_some hlv
          have hch : ch = [] := flatInput_heading hflat
          subst hch
          obtain ⟨hk1, hk2⟩ := ih bs lv hbs hflatbs
          have hlen2 : (specBuild lv bs).val.2.length ≤ n := by
            have := (specBuild lv bs).property.length_le
            omega
          have hflat2 : flatInput (specBuild lv bs).val.2 = true :=
            flatInput_suffix (specBuild lv bs).property hflatbs
          obtain ⟨hr1, hr2⟩ := ih (specBuild lv bs).val.2 bound hlen2 hflat2
          refine ⟨?_, ?_⟩
          · simp only [allHeadingLevelsGt, withChildren, blockLevelsGt,
              List.nil_append, Bool.and_eq_true, decide_eq_true_eq]
            exact ⟨⟨by omega, allGt_mono _ (by omega) hk1⟩, hr1⟩
          · simp only [deepOkList, withChildren, deepOk, List.nil_append,
              Bool.and_eq_true]
            exact ⟨⟨hk1, hk2⟩, hr2⟩

/-- The spec-side forest satisfies the tree-depth invariant on flat input. -/
theorem specForest_deepOk :
    ∀ (n : Nat) (blocks : List IRBlock), blocks.length ≤ n →
      flatInput blocks = true → deepOkList (specForest blocks) = true := by
  intro n
  induction n with
  | zero =>
    intro blocks hn _
    match blocks, hn with
    | [], _ => rw [specForest_nil]; rfl
  | succ n ih =>
    intro blocks hn hflat
    match blocks with
    | [] => rw [specForest_nil]; rfl
    | b :: bs =>
      have hbs : bs.length ≤ n := by
        simp only [List.length_cons] at hn; omega
      have hflatbs : flatInput bs = true := flatInput_cons hflat
      cases hlv : headingLevel? b with
      | none =>
        rw [specForest_cons_none bs hlv]
        simp only [deepOkList, Bool.and_eq_true]
        exact ⟨deepOk_non_heading hlv, ih bs hbs hflatbs⟩
      | some lv =>
        rw [specForest_cons_heading bs hlv]
        obtain ⟨id, pg, tx, rns, ch, cf, rs, rfl⟩ := headingLevel?_eq_some hlv
        have hch : ch = [] := flatInput_heading hflat
        subst hch
        obtain ⟨hk1, hk2⟩ := specBuild_deepOk n bs lv hbs hflatbs
        have hlen2 : (specBuild lv bs).val.2.length ≤ n := by
          have := (specBuild lv bs).property.length_le
          omega
        have hflat2 : flatInput (specBuild lv bs).val.2 = true :=
          flatInput_suffix (specBuild lv bs).property hflatbs
        simp only [deepOkList, withChildren, deepOk, List.nil_append,
          Bool.and_eq_true]
        exact ⟨⟨hk1, hk2⟩, ih _ hlen2 hflat2⟩

/-- Pre-order flattening undoes `specBuild` on flat input. -/
theorem specBuild_flatten :
    ∀ (n : Nat) (blocks : List IRBlock) (bound : Int), blocks.length ≤ n →
      flatInput blocks = true →
      flattenForest (specBuild bound blocks).val.1 ++
        (specBuild bound blocks).val.2 = blocks := by
  intro n
  induction n with
  | zero =>
    intro blocks bound hn _
    match blocks, hn with
    | [], _ => rw [specBuild_nil]; rfl
  | succ n ih =>
    intro blocks bound hn hflat
    match blocks with
    | [] => rw [specBuild_nil]; rfl
    | b :: bs =>
      have hbs : bs.length ≤ n := by
        simp only [List.length_cons] at hn; omega
      have hflatbs : flatInput bs = true := flatInput_cons hflat
      cases hlv : headingLevel? b with
      | none =>
        rw [specBuild_cons_none bs hlv]
        have hfb : flattenBlock b = [b] := by
          cases b <;> first
            | rfl
            | simp [headingLevel?] at hlv
        simp only [flattenForest, hfb, List.cons_append, List.nil_append]
        rw [ih bs bound hbs hflatbs]
      | some lv =>
        by_cases hle : lv ≤ bound
        · rw [specBuild_cons_le bs hlv hle]
          simp [flattenForest]
        · rw [specBuild_cons_gt bs hlv hle]
          obtain ⟨id, pg, tx, rns, ch, cf, rs, rfl⟩ := headingLevel?_eq_some hlv
          have hch : ch = [] := flatInput_heading hflat
          subst hch
          have hlen2 : (specBuild lv bs).val.2.length ≤ n := by
            have := (specBuild lv bs).property.length_le
            omega
          have hflat2 : flatInput (specBuild lv bs).val.2 = true :=
            flatInput_suffix (specBuild lv bs).property hflatbs
          have h1 := ih bs lv hbs hflatbs
          have h2 := ih (specBuild lv bs).val.2 bound hlen2 hflat2
          simp only [flattenForest, flattenBlock, withChildren,
            List.nil_append, List.cons_append, List.append_assoc]
          rw [h2, h1]

/-- Pre-order flattening undoes `specForest` on flat input. -/
theorem specForest_flatten :
    ∀ (n : Nat) (blocks : List IRBlock), blocks.length ≤ n →
      flatInput blocks = true →
      flattenForest (specForest blocks) = blocks := by
  intro n
  induction n with
  | zero =>
    intro blocks hn _
    match blocks, hn with
    | [], _ => rw [specForest_nil]; rfl
  | succ n ih =>
    intro blocks hn hflat
    match blocks with
    | [] => rw [specForest_nil]; rfl
    | b :: bs =>
      have hbs : bs.length ≤ n := by
        simp only [List.length_cons] at hn; omega
      have hflatbs : flatInput bs = true := flatInput_cons hflat
      cases hlv : headingLevel? b with
      | none =>
        rw [specForest_cons_none bs hlv]
        have hfb : flattenBlock b = [b] := by
          cases b <;> first
            | rfl
            | simp [headingLevel?] at hlv
        simp only [flattenForest, hfb, List.cons_append, List.nil_append]
        rw [ih bs hbs hflatbs]
      | some lv =>
        rw [specForest_cons_heading bs hlv]
        obtain ⟨id, pg, tx, rns, ch, cf, rs, rfl⟩ := headingLevel?_eq_some hlv
        have hch : ch = [] := flatInput_heading hflat
        subst hch
        have hlen2 : (specBuild lv bs).val.2.length ≤ n := by
          have := (specBuild lv bs).property.length_le
          omega
        have hflat2 : flatInput (specBuild lv bs).val.2 = true :=
          flatInput_suffix (specBuild lv bs).property hflatbs
        simp only [flattenForest, flattenBlock, withChildren,
          List.nil_append, List.cons_append, List.append_assoc]
        rw [ih _ hlen2 hflat2, specBuild_flatten n bs lv hbs hflatbs]

/-- C2: the heading tree builder equals the spec-side recursive description
(every heading's children are exactly the blocks between it and the next
heading of level ≤ its own); on flat input, every descendant heading of a
level-`L` heading has level strictly greater than `L`; and a skipped level
(level 1 directly followed by level 3) nests the deeper heading directly
under the shallower one, with no synthetic intermediate headings. -/
theorem build_heading_tree_spec :
    (∀ blocks : List IRBlock, build_heading_tree blocks = specForest blocks) ∧
    (∀ blocks : List IRBlock, flatInput blocks = true →
      deepOkList (build_heading_tree blocks) = true) ∧
    build_heading_tree
        [.heading "a" none 1 "A" [] [] 1 none,
         .heading "b" none 3 "B" [] [] 1 none] =
      [.heading "a" none 1 "A" []
        [.heading "b" none 3 "B" [] [] 1 none] 1 none] := by
  refine ⟨build_heading_tree_eq_specForest, ?_, rfl⟩
  intro blocks hflat
  rw [build_heading_tree_eq_specForest]
  exact specForest_deepOk blocks.length blocks (le_refl _) hflat

/-- C2 witness: the depth invariant holds on a concrete flat sequence. -/
theorem build_heading_tree_spec_witness :
    deepOkList (build_heading_tree
      [IRBlock.heading "a" none 1 "A" [] [] 1 none,
       IRBlock.paragraph "p" none "t" [],
       IRBlock.heading "b" none 3 "B" [] [] 1 none,
       IRBlock.heading "c" none 2 "C" [] [] 1 none]) = true :=
  build_heading_tree_spec.2.1
    [IRBlock.heading "a" none 1 "A" [] [] 1 none,
     IRBlock.paragraph "p" none "t" [],
     IRBlock.heading "b" none 3 "B" [] [] 1 none,
     IRBlock.heading "c" none 2 "C" [] [] 1 none] (by decide)

/-- C10: on flat input (no heading carries children yet), the pre-order
traversal of the built tree — each node followed by its children,
recursively — is exactly the input list: the builder never drops,
duplicates or reorders a block, it only re-parents blocks. -/
theorem build_heading_tree_preorder (blocks : List IRBlock)
    (hflat : flatInput blocks = true) :
    flattenForest (build_heading_tree blocks) = blocks := by
  rw [build_heading_tree_eq_specForest]
  exact specForest_flatten blocks.length blocks (le_refl _) hflat

/-- C10 witness: pre-order traversal restores a concrete flat input. -/
theorem build_heading_tree_preorder_witness :
    flattenForest (build_heading_tree
      [IRBlock.heading "a" none 1 "A" [] [] 1 none,
       IRBlock.heading "b" none 3 "B" [] [] 1 none,
       IRBlock.paragraph "p" none "t" [],
       IRBlock.heading "c" none 2 "C" [] [] 1 none]) =
      [IRBlock.heading "a" none 1 "A" [] [] 1 none,
       IRBlock.heading "b" none 3 "B" [] [] 1 none,
       IRBlock.paragraph "p" none "t" [],
       IRBlock.heading "c" none 2 "C" [] [] 1 none] :=
  build_heading_tree_preorder
    [IRBlock.heading "a" none 1 "A" [] [] 1 none,
     IRBlock.heading "b" none 3 "B" [] [] 1 none,
     IRBlock.paragraph "p" none "t" [],
     IRBlock.heading "c" none 2 "C" [] [] 1 none] (by decide)

/-! Characterization of the single-segment exception of
`_level_from_numbering` (claim C4). -/

/-- The remaining text begins with an ASCII uppercase letter: together with
an uppercase `c` this is the claim's "number followed by two uppercase
letters" qualifier. -/
def headIsUpper : List Char → Bool
  | r :: _ => r.isUpper
  | [] => false

/-- The remaining text begins with at least four ASCII lowercase letters:
together with an uppercase `c` this is the claim's "capitalized word of at
least 5 letters" qualifier. -/
def startsFourLower : List Char → Bool
  | a :: b :: c2 :: d :: _ => a.isLower && b.isLower && c2.isLower && d.isLower
  | _ => false

theorem space_ne_dot {s : Char} (h : isSpaceChar s = true) : ¬ s = '.' := by
  simp only [isSpaceChar, Bool.or_eq_true, decide_eq_true_eq] at h
  rcases h with ((((rfl | rfl) | rfl) | rfl) | rfl) | rfl <;> decide

theorem dot_not_digit : ('.' : Char).isDigit = false := by decide

theorem dot_not_space : isSpaceChar '.' = false := by decide

theorem segLoop_digits :
    ∀ (ds : List Char), ds.all Char.isDigit = true →
      ∀ (n : Nat) (tail : List Char), segLoop n (ds ++ tail) = segLoop n tail := by
  intro ds
  induction ds with
  | nil => intro _ n tail; rfl
  | cons d dt ih =>
    intro h n tail
    simp only [List.all_cons, Bool.and_eq_true] at h
    rw [List.cons_append, segLoop.eq_def]
    simp only [h.1, if_true]
    exact ih h.2 n tail

theorem segLoop_stop_space {s : Char} (hs : isSpaceChar s = true)
    (n : Nat) (tl : List Char) : segLoop n (s :: tl) = (n, s :: tl) := by
  rw [segLoop.eq_def]
  simp [space_not_digit hs, space_ne_dot hs]

theorem segLoop_stop_dot_space {s : Char} (hs : isSpaceChar s = true)
    (n : Nat) (tl : List Char) :
    segLoop n ('.' :: s :: tl) = (n, '.' :: s :: tl) := by
  rw [segLoop.eq_def]
  simp [space_not_digit hs]

theorem parseNumSeq_ds_space {ds : List Char} (hne : ds ≠ [])
    (hdig : ds.all Char.isDigit = true) {s : Char}
    (hs : isSpaceChar s = true) (tl : List Char) :
    parseNumSeq (ds ++ s :: tl) = some (1, s :: tl) := by
  match ds, hne with
  | d :: dt, _ =>
    simp only [List.all_cons, Bool.and_eq_true] at hdig
    simp only [List.cons_append, parseNumSeq, hdig.1, if_true]
    rw [segLoop_digits dt hdig.2, segLoop_stop_space hs]

theorem parseNumSeq_ds_dot_space {ds : List Char} (hne : ds ≠ [])
    (hdig : ds.all Char.isDigit = true) {s : Char}
    (hs : isSpaceChar s = true) (tl : List Char) :
    parseNumSeq (ds ++ '.' :: s :: tl) = some (1, '.' :: s :: tl) := by
  match ds, hne with
  | d :: dt, _ =>
    simp only [List.all_cons, Bool.and_eq_true] at hdig
    simp only [List.cons_append, parseNumSeq, hdig.1, if_true]
    rw [segLoop_digits dt hdig.2, segLoop_stop_dot_space hs]

theorem dropWhile_append_keep {p : Char → Bool} {c : Char} (hc : p c = false) :
    ∀ (u w : List Char),
      List.dropWhile p (u ++ c :: w) = List.dropWhile p u ++ c :: w := by
  intro u
  induction u with
  | nil => intro w; simp [List.dropWhile, hc]
  | cons x xt ih =>
    intro w
    by_cases hx : p x = true
    · rw [List.cons_append, List.dropWhile_cons_of_pos hx,
        List.dropWhile_cons_of_pos hx, ih]
    · rw [List.cons_append,
        List.dropWhile_cons_of_neg (by simpa using hx),
        List.dropWhile_cons_of_neg (by simpa using hx), List.cons_append]

theorem pyStrip_decomp (A : List Char) (c : Char) (rest : List Char)
    (hA : A = [] ∨ ∃ a A2, A = a :: A2 ∧ isSpaceChar a = false)
    (hc : isSpaceChar c = false) :
    pyStrip (A ++ c :: rest) =
      A ++ c :: (List.dropWhile isSpaceChar rest.reverse).reverse := by
  have h1 : List.dropWhile isSpaceChar (A ++ c :: rest) = A ++ c :: rest := by
    rcases hA with rfl | ⟨a, A2, rfl, ha⟩
    · rw [List.nil_append]
      exact List.dropWhile_cons_of_neg (by simp [hc])
    · rw [List.cons_append]
      rw [List.dropWhile_cons_of_neg (by simp [ha])]
  simp only [pyStrip, h1, List.reverse_append, List.reverse_cons]
  rw [List.append_assoc, List.singleton_append,
    dropWhile_append_keep hc rest.reverse A.reverse]
  simp

theorem bareNumberLevel_single {cs tail : List Char}
    (h : parseNumSeq cs = some (1, tail)) : bareNumberLevel cs = none := by
  simp [bareNumberLevel, h]

theorem dotThen_not_dot {p : Char → Bool} {a : Char} (ha : ¬ a = '.') :
    ∀ tl, dotThen p (a :: tl) = false := by
  intro tl
  cases tl with
  | nil => rfl
  | cons d tl2 => simp [dotThen, ha]

theorem dropWhile_digits_cons {ds : List Char}
    (hdig : ds.all Char.isDigit = true) {x : Char} (hx : x.isDigit = false)
    (tl : List Char) :
    List.dropWhile Char.isDigit (ds ++ x :: tl) = x :: tl := by
  rw [dropWhile_append_all (x :: tl) hdig,
    List.dropWhile_cons_of_neg (by simp [hx])]

theorem matchNumDotThen_dot {p : Char → Bool} {ds : List Char}
    (hne : ds ≠ []) (hdig : ds.all Char.isDigit = true) (s : Char)
    (tl : List Char) :
    matchNumDotThen p (ds ++ '.' :: s :: tl) = p s := by
  match ds, hne with
  | d :: dt, _ =>
    have hdig' := hdig
    simp only [List.all_cons, Bool.and_eq_true] at hdig'
    rw [List.cons_append, matchNumDotThen.eq_def]
    simp only [hdig'.1, Bool.true_and, ← List.cons_append]
    rw [dropWhile_digits_cons hdig (by decide)]
    simp [dotThen]

theorem matchNumDotThen_space {p : Char → Bool} {ds : List Char}
    (hne : ds ≠ []) (hdig : ds.all Char.isDigit = true) {s : Char}
    (hs : isSpaceChar s = true) (tl : List Char) :
    matchNumDotThen p (ds ++ s :: tl) = false := by
  match ds, hne with
  | d :: dt, _ =>
    have hdig' := hdig
    simp only [List.all_cons, Bool.and_eq_true] at hdig'
    rw [List.cons_append, matchNumDotThen.eq_def]
    simp only [hdig'.1, Bool.true_and, ← List.cons_append]
    rw [dropWhile_digits_cons hdig (space_not_digit hs)]
    rw [dotThen_not_dot (space_ne_dot hs)]

theorem spacesThen_run {sp : List Char} (hne : sp ≠ [])
    (hsps : sp.all isSpaceChar = true) {c : Char}
    (hc : isSpaceChar c = false) (rest : List Char) :
    spacesThen (sp ++ c :: rest) = some (c :: rest) :=
  spacesThen_iff.mpr ⟨sp, rfl, hne, hsps, Or.inr ⟨c, rest, rfl, hc⟩⟩

theorem matchNumSpaceUpper2_dot {ds : List Char} (hne : ds ≠ [])
    (hdig : ds.all Char.isDigit = true) (tl : List Char) :
    matchNumSpaceUpper2 (ds ++ '.' :: tl) = false := by
  match ds, hne with
  | d :: dt, _ =>
    have hdig' := hdig
    simp only [List.all_cons, Bool.and_eq_true] at hdig'
    rw [List.cons_append, matchNumSpaceUpper2.eq_def]
    dsimp only
    simp only [hdig'.1, Bool.true_and]
    have hdw : List.dropWhile Char.isDigit (dt ++ '.' :: tl) = '.' :: tl :=
      dropWhile_digits_cons hdig'.2 (by decide) tl
    rw [hdw, spacesThen.eq_def]
    dsimp only
    simp [dot_not_space]

theorem matchNumSpaceUpper2_run {ds : List Char} (hne : ds ≠ [])
    (hdig : ds.all Char.isDigit = true) {sp : List Char} (hspne : sp ≠ [])
    (hsps : sp.all isSpaceChar = true) {c : Char}
    (hc : isSpaceChar c = false) (rest : List Char) :
    matchNumSpaceUpper2 (ds ++ sp ++ c :: rest) =
      (c.isUpper && headIsUpper rest) := by
  match ds, hne with
  | d :: dt, _ =>
    have hdig' := hdig
    simp only [List.all_cons, Bool.and_eq_true] at hdig'
    simp only [List.cons_append]
    rw [matchNumSpaceUpper2.eq_def]
    dsimp only
    simp only [hdig'.1, Bool.true_and]
    have hs0 : ∃ s sp2, sp = s :: sp2 := by
      match sp, hspne with
      | s :: sp2, _ => exact ⟨s, sp2, rfl⟩
    obtain ⟨s, sp2, rfl⟩ := hs0
    have hsp' := hsps
    simp only [List.all_cons, Bool.and_eq_true] at hsp'
    have hdw : List.dropWhile Char.isDigit ((dt ++ s :: sp2) ++ c :: rest) =
        (s :: sp2) ++ c :: rest := by
      rw [List.append_assoc, List.cons_append,
        dropWhile_digits_cons hdig'.2 (space_not_digit hsp'.1)]
    rw [hdw, spacesThen_run hspne hsps hc rest]
    cases rest with
    | nil => simp [headIsUpper]
    | cons r rs => simp [headIsUpper]

theorem matchDigitSpaceCapWord_two (d1 d2 : Char) (hd2 : d2.isDigit = true)
    (tl : List Char) : matchDigitSpaceCapWord (d1 :: d2 :: tl) = false := by
  rw [matchDigitSpaceCapWord.eq_def]
  dsimp only
  rw [spacesThen.eq_def]
  dsimp only
  simp [digit_not_space hd2]

theorem matchDigitSpaceCapWord_dot (d : Char) (tl : List Char) :
    matchDigitSpaceCapWord (d :: '.' :: tl) = false := by
  rw [matchDigitSpaceCapWord.eq_def]
  dsimp only
  rw [spacesThen.eq_def]
  dsimp only
  simp [dot_not_space]

theorem matchDigitSpaceCapWord_run (d : Char) {sp : List Char}
    (hspne : sp ≠ []) (hsps : sp.all isSpaceChar = true) {c : Char}
    (hc : isSpaceChar c = false) (rest : List Char) :
    matchDigitSpaceCapWord (d :: (sp ++ c :: rest)) =
      (d.isDigit && c.isUpper && startsFourLower rest) := by
  rw [matchDigitSpaceCapWord.eq_def]
  dsimp only
  rw [spacesThen_run hspne hsps hc rest]
  match rest with
  | [] => simp [startsFourLower]
  | [r1] => simp [startsFourLower]
  | [r1, r2] => simp [startsFourLower]
  | [r1, r2, r3] => simp [startsFourLower]
  | r1 :: r2 :: r3 :: r4 :: rs =>
    simp only [startsFourLower]
    cases d.isDigit <;> cases c.isUpper <;> simp

theorem dotSpacesNonspace_dot {s : Char} (hs : isSpaceChar s = true)
    {sp2 : List Char} (hsp2 : sp2.all isSpaceChar = true) {c : Char}
    (hc : isSpaceChar c = false) (rest : List Char) :
    dotSpacesNonspace ('.' :: s :: (sp2 ++ c :: rest)) = true := by
  rw [dotSpacesNonspace.eq_def]
  dsimp only
  simp only [if_pos rfl]
  have : spacesThen ((s :: sp2) ++ c :: rest) = some (c :: rest) :=
    spacesThen_run (by simp) (by simp [hs, hsp2]) hc rest
  simp only [spacesThenNonspace, List.cons_append] at *
  rw [this]
  simp

theorem dotSpacesNonspace_space {s : Char} (hs : isSpaceChar s = true)
    {sp2 : List Char} (hsp2 : sp2.all isSpaceChar = true) {c : Char}
    (hc : isSpaceChar c = false) (rest : List Char) :
    dotSpacesNonspace (s :: (sp2 ++ c :: rest)) = true := by
  rw [dotSpacesNonspace.eq_def]
  dsimp only
  rw [if_neg (space_ne_dot hs)]
  have : spacesThen ((s :: sp2) ++ c :: rest) = some (c :: rest) :=
    spacesThen_run (by simp) (by simp [hs, hsp2]) hc rest
  simp only [spacesThenNonspace, List.cons_append] at *
  rw [this]
  simp

/-- The single-segment sentence of the spec read literally: for every text
made of a run of digits, then a whitespace separator, then further non-space
text, `_level_from_numbering` returns level 1 exactly when the number is
followed by two uppercase letters or by a capitalized word of at least five
letters — with the capitalized-word qualifier available for a leading number
of ANY length — and `none` otherwise.  (The dot qualifier does not apply to
these texts: the character right after the number is whitespace.)  This
proposition is implied by claim C4 as stated; the source's fourth check
`^\d\s+[A-Z][a-z]{4,}` requires a SINGLE digit, so the proposition is false:
see the counterexample below. -/
def claimC4SingleSegment : Prop :=
  ∀ (ds sp : List Char) (c : Char) (rest : List Char),
    ds ≠ [] → ds.all Char.isDigit = true → sp ≠ [] →
    sp.all isSpaceChar = true → isSpaceChar c = false →
    levelFromNumberingL (ds ++ sp ++ c :: rest) =
      (if c.isUpper && (headIsUpper rest || startsFourLower rest)
       then some 1 else none)

/-- C4 (counterexample): the claim's capitalized-word qualifier is not
available for numbers of two or more digits.  `"12 Safety Instructions"`
starts with a two-digit number followed by a capitalized word of six
letters, so the claim as stated yields level 1, but
`_level_from_numbering("12 Safety Instructions")` is `None`: the check
`^\d\s+[A-Z][a-z]{4,}` matches a single digit only, and
`^\d+\s+[A-Z]{2}` fails on `"Sa"`. -/
theorem numbering_capword_counterexample :
    ¬ claimC4SingleSegment ∧
      level_from_numbering "12 Safety Instructions" = none := by
  constructor
  · intro h
    have h12 := h ['1', '2'] [' '] 'S' "afety Instructions".data
      (by decide) (by decide) (by decide) (by decide) (by decide)
    exact absurd h12 (by decide)
  · decide

/-- C4 (corrected): for every text of a single numeric segment followed by a
separator and further non-space text, `_level_from_numbering` behaves as the
spec says except that the capitalized-word qualifier additionally requires
the leading number to be a SINGLE digit.  Concretely, for digits `ds`,
whitespace `sp`, and a non-space character `c`: with the dot separator
(`ds ++ "." ++ sp ++ c·rest`, the claim's first qualifier) the result is
always level 1; with the bare whitespace separator (`ds ++ sp ++ c·rest`)
the result is level 1 when `c` and the next character are uppercase (second
qualifier) or when `ds` is one digit, `c` is uppercase and four lowercase
letters follow (third qualifier, narrowed), and `none` otherwise — in
particular `_level_from_numbering("12 Monkeys")` is `None`. -/
theorem numbering_single_segment_qualifiers
    {ds : List Char} (hne : ds ≠ []) (hdig : ds.all Char.isDigit = true)
    {sp : List Char} (hspne : sp ≠ []) (hsps : sp.all isSpaceChar = true)
    {c : Char} (hc : isSpaceChar c = false) (rest : List Char) :
    levelFromNumberingL (ds ++ '.' :: (sp ++ c :: rest)) = some 1 ∧
    levelFromNumberingL (ds ++ sp ++ c :: rest) =
      (if c.isUpper && (headIsUpper rest
          || (ds.length == 1 && startsFourLower rest))
       then some 1 else none) ∧
    level_from_numbering "12 Monkeys" = none := by
  obtain ⟨s, sp2, rfl⟩ : ∃ s sp2, sp = s :: sp2 := by
    match sp, hspne with
    | s :: sp2, _ => exact ⟨s, sp2, rfl⟩
  obtain ⟨d, dt, rfl⟩ : ∃ d dt, ds = d :: dt := by
    match ds, hne with
    | d :: dt, _ => exact ⟨d, dt, rfl⟩
  have hsp' := hsps
  simp only [List.all_cons, Bool.and_eq_true] at hsp'
  have hdig' := hdig
  simp only [List.all_cons, Bool.and_eq_true] at hdig'
  refine ⟨?_, ?_, by decide⟩
  · -- dot separator: always level 1
    have hshape : (d :: dt) ++ '.' :: ((s :: sp2) ++ c :: rest) =
        (d :: dt) ++ '.' :: s :: (sp2 ++ c :: rest) := by simp
    rw [hshape]
    have hps : parseNumSeq ((d :: dt) ++ '.' :: s :: (sp2 ++ c :: rest)) =
        some (1, '.' :: s :: (sp2 ++ c :: rest)) :=
      parseNumSeq_ds_dot_space hne hdig hsp'.1 _
    have hbare : bareNumberLevel
        (pyStrip ((d :: dt) ++ '.' :: s :: (sp2 ++ c :: rest))) = none := by
      have hshape2 : (d :: dt) ++ '.' :: s :: (sp2 ++ c :: rest) =
          (d :: (dt ++ '.' :: s :: sp2)) ++ c :: rest := by simp
      rw [hshape2, pyStrip_decomp _ c rest
        (Or.inr ⟨d, dt ++ '.' :: s :: sp2, rfl, digit_not_space hdig'.1⟩) hc]
      apply bareNumberLevel_single
      have hshape3 : (d :: (dt ++ '.' :: s :: sp2)) ++ c ::
          (List.dropWhile isSpaceChar rest.reverse).reverse =
          (d :: dt) ++ '.' :: s :: (sp2 ++ c ::
            (List.dropWhile isSpaceChar rest.reverse).reverse) := by simp
      rw [hshape3]
      exact parseNumSeq_ds_dot_space hne hdig hsp'.1 _
    have hdot : dotSpacesNonspace ('.' :: s :: (sp2 ++ c :: rest)) = true :=
      dotSpacesNonspace_dot hsp'.1 hsp'.2 hc rest
    have hm1 : matchNumDotThen isSpaceChar
        ((d :: dt) ++ '.' :: s :: (sp2 ++ c :: rest)) = true := by
      rw [matchNumDotThen_dot hne hdig s _]
      exact hsp'.1
    simp only [levelFromNumberingL, hbare, hps, hdot, hm1]
    simp
  · -- whitespace separator
    have hshapeG : (d :: dt) ++ (s :: sp2) ++ c :: rest =
        d :: (dt ++ s :: (sp2 ++ c :: rest)) := by simp
    rw [hshapeG]
    have hps : parseNumSeq (d :: (dt ++ s :: (sp2 ++ c :: rest))) =
        some (1, s :: (sp2 ++ c :: rest)) := by
      simpa using parseNumSeq_ds_space hne hdig hsp'.1 (sp2 ++ c :: rest)
    have hbare : bareNumberLevel
        (pyStrip (d :: (dt ++ s :: (sp2 ++ c :: rest)))) = none := by
      have hshape2 : d :: (dt ++ s :: (sp2 ++ c :: rest)) =
          (d :: (dt ++ s :: sp2)) ++ c :: rest := by simp
      rw [hshape2, pyStrip_decomp _ c rest
        (Or.inr ⟨d, dt ++ s :: sp2, rfl, digit_not_space hdig'.1⟩) hc]
      apply bareNumberLevel_single
      have hshape3 : (d :: (dt ++ s :: sp2)) ++ c ::
          (List.dropWhile isSpaceChar rest.reverse).reverse =
          (d :: dt) ++ s :: (sp2 ++ c ::
            (List.dropWhile isSpaceChar rest.reverse).reverse) := by simp
      rw [hshape3]
      exact parseNumSeq_ds_space hne hdig hsp'.1 _
    have hdotspace : dotSpacesNonspace (s :: (sp2 ++ c :: rest)) = true :=
      dotSpacesNonspace_space hsp'.1 hsp'.2 hc rest
    have hm1 : matchNumDotThen isSpaceChar
        (d :: (dt ++ s :: (sp2 ++ c :: rest))) = false := by
      simpa using matchNumDotThen_space hne hdig hsp'.1 (sp2 ++ c :: rest)
    have hm2 : matchNumDotThen Char.isDigit
        (d :: (dt ++ s :: (sp2 ++ c :: rest))) = false := by
      simpa using matchNumDotThen_space hne hdig hsp'.1 (sp2 ++ c :: rest)
    have hm3 : matchNumSpaceUpper2 (d :: (dt ++ s :: (sp2 ++ c :: rest))) =
        (c.isUpper && headIsUpper rest) := by
      simpa using matchNumSpaceUpper2_run hne hdig hspne hsps hc rest
    have hm4 : matchDigitSpaceCapWord (d :: (dt ++ s :: (sp2 ++ c :: rest))) =
        (((d :: dt).length == 1) && (c.isUpper && startsFourLower rest)) := by
      cases dt with
      | nil =>
        simpa [hdig'.1, Bool.and_assoc] using
          matchDigitSpaceCapWord_run d hspne hsps hc rest
      | cons d2 dt2 =>
        have hd2 : d2.isDigit = true := by
          have h2 := hdig'.2
          simp only [List.all_cons, Bool.and_eq_true] at h2
          exact h2.1
        simpa using
          matchDigitSpaceCapWord_two d d2 hd2 (dt2 ++ s :: (sp2 ++ c :: rest))
    simp only [levelFromNumberingL, hbare, hps, hdotspace, hm1, hm2, hm3, hm4]
    cases c.isUpper <;> cases headIsUpper rest <;>
      cases startsFourLower rest <;> cases ((d :: dt).length == 1) <;> simp

/-- C4 witness at `"3. QUALITY CONTROL"`, `"3 QUALITY CONTROL"` and
`"12 Monkeys"`. -/
theorem numbering_single_segment_qualifiers_witness :
    levelFromNumberingL
      (['3'] ++ '.' :: ([' '] ++ 'Q' :: "UALITY CONTROL".data)) = some 1 ∧
    levelFromNumberingL (['3'] ++ [' '] ++ 'Q' :: "UALITY CONTROL".data) =
      some 1 ∧
    level_from_numbering "12 Monkeys" = none := by
  have h := @numbering_single_segment_qualifiers ['3'] (by decide) (by decide)
    [' '] (by decide) (by decide) 'Q' (by decide) "UALITY CONTROL".data
  refine ⟨h.1, ?_, h.2.2⟩
  rw [h.2.1]
  decide

/-! Round-trip of the external JSON form (claim C9): every component
serializer is inverted exactly by its parser. -/

theorem jInt?_ofInt (i : Int) : jInt? (jsonOfInt i) = some i := by
  simp [jInt?, jsonOfInt, Rat.den_intCast, Rat.num_intCast]

theorem jOptInt?_ofOptInt (o : Option Int) :
    jOptInt? (jsonOfOptInt o) = some o := by
  cases o with
  | none => rfl
  | some i => simp [jOptInt?, jsonOfOptInt, jsonOfInt, Rat.den_intCast,
      Rat.num_intCast]

theorem jOptStr?_ofOptStr (o : Option String) :
    jOptStr? (jsonOfOptStr o) = some o := by
  cases o <;> rfl

theorem jOptNum?_ofOptNum (o : Option ℚ) :
    jOptNum? (jsonOfOptNum o) = some o := by
  cases o <;> rfl

theorem textRun_rt (r : TextRun) :
    textRunFromJson (textRunToJson r) = some r := by
  cases r
  simp [textRunToJson, textRunFromJson, jOptStr?_ofOptStr]

theorem runs_rt (rs : List TextRun) :
    runsFromJson (rs.map textRunToJson) = some rs := by
  induction rs with
  | nil => rfl
  | cons r rt ih => simp [runsFromJson, textRun_rt r, ih]

mutual

theorem listItem_rt : ∀ (it : ListItem),
    listItemFromJson (listItemToJson it) = some it
  | .mk tx rs cs => by
    rw [listItemToJson, runsToJson, listItemFromJson, runs_rt rs,
      listItems_rt cs]

theorem listItems_rt : ∀ (cs : List ListItem),
    listItemsFromJson (listItemsToJson cs) = some cs
  | [] => rfl
  | c :: cs => by
    rw [listItemsToJson, listItemsFromJson, listItem_rt c, listItems_rt cs]

end

theorem tableCell_rt (c : TableCell) :
    tableCellFromJson (tableCellToJson c) = some c := by
  cases c
  simp [tableCellToJson, tableCellFromJson, jInt?_ofInt, runsToJson, runs_rt]

theorem tableCells_rt (cs : List TableCell) :
    tableCellsFromJson (cs.map tableCellToJson) = some cs := by
  induction cs with
  | nil => rfl
  | cons c ct ih => simp [tableCellsFromJson, tableCell_rt c, ih]

theorem listStyle_rt (s : ListStyle) :
    listStyleOfStr (listStyleStr s) = some s := by
  cases s <;> rfl

mutual

theorem block_rt : ∀ (b : IRBlock), wfBlock b →
    blockFromJson (blockToJson b) = some b
  | .paragraph id pg tx rns, _ => by
    simp [blockToJson, runsToJson, blockFromJson, paragraphFieldsFromJson,
      jOptInt?_ofOptInt, runs_rt]
  | .listBlock id pg sty mf items, _ => by
    simp [blockToJson, blockFromJson, listFieldsFromJson, jOptInt?_ofOptInt,
      listStyle_rt, jOptStr?_ofOptStr, listItems_rt]
  | .table id pg nr nc cells, _ => by
    simp [blockToJson, blockFromJson, tableFieldsFromJson, jOptInt?_ofOptInt,
      jInt?_ofInt, tableCells_rt]
  | .figure id pg ip ib cap w h, _ => by
    simp [blockToJson, blockFromJson, figureFieldsFromJson, jOptInt?_ofOptInt,
      jOptStr?_ofOptStr, jOptNum?_ofOptNum]
  | .pageBreak id pg, _ => by
    simp [blockToJson, blockFromJson, pageBreakFieldsFromJson,
      jOptInt?_ofOptInt]
  | .heading id pg lv tx rns ch cf rs, hwf => by
    have hw : (1 ≤ lv ∧ lv ≤ 9) ∧ (0 ≤ cf ∧ cf ≤ 1) ∧ wfBlocks ch := hwf
    have hch := blocks_rt ch hw.2.2
    simp [blockToJson, runsToJson, blockFromJson, jOptInt?_ofOptInt,
      jInt?_ofInt, runs_rt, hch, jOptStr?_ofOptStr, hw.1.1, hw.1.2,
      hw.2.1.1, hw.2.1.2]

theorem blocks_rt : ∀ (bs : List IRBlock), wfBlocks bs →
    blocksFromJson (blocksToJson bs) = some bs
  | [], _ => rfl
  | b :: bs, hwf => by
    have hw : wfBlock b ∧ wfBlocks bs := hwf
    rw [blocksToJson, blocksFromJson, block_rt b hw.1, blocks_rt bs hw.2]

end

theorem pages_rt (ps : List Int) :
    pagesFromJson (ps.map jsonOfInt) = some ps := by
  induction ps with
  | nil => rfl
  | cons p pt ih => simp [pagesFromJson, jInt?_ofInt p, ih]

theorem furnitureType_rt (t : FurnitureType) :
    furnitureTypeOfStr (furnitureTypeStr t) = some t := by
  cases t <;> rfl

theorem furniture_rt (f : FurnitureItem) :
    furnitureFromJson (furnitureToJson f) = some f := by
  cases f
  simp [furnitureToJson, furnitureFromJson, furnitureType_rt, pagesToJson,
    pages_rt]

theorem furnitures_rt (fs : List FurnitureItem) :
    furnituresFromJson (fs.map furnitureToJson) = some fs := by
  induction fs with
  | nil => rfl
  | cons f ft ih => simp [furnituresFromJson, furniture_rt f, ih]

theorem metadata_rt (m : DocumentMetadata) :
    metadataFromJson (metadataToJson m) = some m := by
  cases m
  simp [metadataToJson, metadataFromJson, jInt?_ofInt]

/-- C9: for every document whose heading levels and confidences satisfy the
schema's declared field constraints (`level` in 1..9, `confidence` in
[0,1] — pydantic re-validates them on parsing), serializing to the external
JSON form and parsing back yields a structurally and value-equal document:
`from_json (to_json d) = some d`. -/
theorem document_ir_roundtrip (d : DocumentIR) (hwf : wfDoc d) :
    from_json (to_json d) = some d := by
  obtain ⟨m, body, furn⟩ := d
  have hb : wfBlocks body := hwf
  rw [to_json, from_json]
  rw [metadata_rt m, blocks_rt body hb, furnitures_rt furn]

/-- C9 witness: a concrete two-block document with a heading containing a
paragraph, a furniture item and nonempty metadata round-trips. -/
theorem document_ir_roundtrip_witness :
    from_json (to_json
      ⟨⟨"a.pdf", "h", "docling", "1", 3, "T"⟩,
       [IRBlock.heading "h1" (some 1) 1 "Intro"
          [⟨"Intro", true, false, false, false, false, false, none⟩]
          [IRBlock.paragraph "p1" (some 1) "hello" []] 1 (some "numbering"),
        IRBlock.pageBreak "b1" (some 1)],
       [⟨FurnitureType.footer, "p. 1", [1, 2]⟩]⟩) =
      some
      ⟨⟨"a.pdf", "h", "docling", "1", 3, "T"⟩,
       [IRBlock.heading "h1" (some 1) 1 "Intro"
          [⟨"Intro", true, false, false, false, false, false, none⟩]
          [IRBlock.paragraph "p1" (some 1) "hello" []] 1 (some "numbering"),
        IRBlock.pageBreak "b1" (some 1)],
       [⟨FurnitureType.footer, "p. 1", [1, 2]⟩]⟩ :=
  document_ir_roundtrip _
    ⟨⟨⟨by norm_num, by norm_num⟩, ⟨by norm_num, by norm_num⟩,
       trivial, trivial⟩, trivial, trivial⟩

end PdfConverter
